import Mathlib

/-!
Shallow embedding of the `peret` package (BTS → AED TEI ETL helpers).

Python dicts are modelled as association lists (`List (String × β)`):
lookup returns the value of the first matching key (Python dicts have
unique keys, so this is exact), and assignment (`setKey`) replaces the
value at the first occurrence of the key or appends a new pair at the
end, matching Python's insertion-order semantics.  Registry entries are
modelled by the property bag the functions under consideration touch
(e.g. their `relations` dict), since the embedded functions read and
write nothing else of an entry.
-/

namespace Peret

/-- Python `d[k]` / `d.get(k)`: value at the first occurrence of key `k`. -/
def getKey? {β : Type} (l : List (String × β)) (k : String) : Option β :=
  (l.find? (fun p => p.1 == k)).map Prod.snd

/-- Python `d[k] = v`: replace the value at the first occurrence of `k`,
or append `(k, v)` when `k` is absent (insertion order semantics). -/
def setKey {β : Type} : List (String × β) → String → β → List (String × β)
  | [], k, v => [(k, v)]
  | p :: rest, k, v =>
      if p.1 = k then (k, v) :: rest else p :: setKey rest k v

/-- The keys of a dict, in order. -/
def keysOf {β : Type} (l : List (String × β)) : List String := l.map Prod.fst

/-- Python `k in d`. -/
def containsKey {β : Type} (l : List (String × β)) (k : String) : Bool :=
  (getKey? l k).isSome

/-- A qualified-property bag: qualifier ↦ list of values
(e.g. a `relations` dict: predicate ↦ target ids). -/
abbrev Props := List (String × List String)

/-- An entry of the vocab registry, modelled by its `relations` bag
(the only part of an entry the relation-repair functions touch). -/
abbrev Entry := Props

/-- The vocab registry (`wlist`): id ↦ entry. -/
abbrev Wlist := List (String × Entry)

/-- Python `registry.get(qualifier, [])`. -/
def valsOf (props : Props) (q : String) : List String :=
  (getKey? props q).getD []

/-- `providers.register_qualified_property`: append `value` to the list
stored under `qualifier` (no-op when either is falsy, i.e. empty). -/
def register_qualified_property (registry : Props) (qualifier value : String) :
    Props :=
  if qualifier ≠ "" ∧ value ≠ "" then
    setKey registry qualifier (valsOf registry qualifier ++ [value])
  else registry

/-- All (qualifier, value) pairs of a bag, in iteration order
(`for predicate, values in ...: for value in values`). -/
def edgesOf (props : Props) : List (String × String) :=
  props.flatMap (fun pv => pv.2.map (fun v => (pv.1, v)))

/-- The bag holds an edge `P ↦ T` (in any of its value lists). -/
def propHas (props : Props) (P T : String) : Prop := (P, T) ∈ edgesOf props

instance (props : Props) (P T : String) : Decidable (propHas props P T) := by
  unfold propHas; infer_instance

/-- The entry stored under `e` (missing entries read as empty). -/
def entryOf (w : Wlist) (e : String) : Entry := (getKey? w e).getD []

/-- Registry entry `e` has an edge `P ↦ T` in its relations bag. -/
def hasEdge (w : Wlist) (e P T : String) : Prop := propHas (entryOf w e) P T

instance (w : Wlist) (e P T : String) : Decidable (hasEdge w e P T) := by
  unfold hasEdge; infer_instance

/-! ## pre.py -/

/-- The four base pairs out of which `pre.INVERSE` is built. -/
def INVERSE_PAIRS : List (String × String) :=
  [("partOf", "contains"), ("predecessor", "successor"),
   ("rootOf", "root"), ("referencedBy", "referencing")]

/-- `pre.INVERSE`: each base pair together with its reversal
(`reduce(lambda l, e: l + [e, e[::-1]], ..., [])`, then `dict(...)`). -/
def INVERSE : List (String × String) :=
  INVERSE_PAIRS.foldl (fun l e => l ++ [e, (e.2, e.1)]) []

/-- `pre._verify_relations`: drop relation targets that are not keys of
`wlist` (rebuilds every value list of the `relations` bag). -/
def _verify_relations (entry : Entry) (wlist : Wlist) : Entry :=
  entry.map (fun pv => (pv.1, pv.2.filter (fun v => containsKey wlist v)))

/-- The edge loop of `pre._mirror_relations`: for each `(predicate, value)`
edge, skip self references, fail (Python `KeyError`) when `INVERSE` has no
entry for the predicate, and otherwise append the inverse edge to the
target's relations bag (updates to ids absent from `wlist` are discarded,
as the fresh dict made by `wlist.get(value, {})` is dropped). -/
def mirrorEdges (entry_id : String) (w : Wlist) :
    List (String × String) → Option Wlist
  | [] => some w
  | (predicate, value) :: rest =>
      if value = entry_id then mirrorEdges entry_id w rest
      else
        match getKey? INVERSE predicate with
        | none => none
        | some inv =>
            match getKey? w value with
            | none => mirrorEdges entry_id w rest
            | some tprops =>
                mirrorEdges entry_id
                  (setKey w value (register_qualified_property tprops inv entry_id))
                  rest

/-- `pre._mirror_relations`: create inverted relations in the `wlist`
entries referenced by this entry's relations; returns the (untouched)
entry together with the updated registry, or fails on an unmapped
predicate. -/
def _mirror_relations (entry_id : String) (entry : Entry) (wlist : Wlist) :
    Option (Entry × Wlist) :=
  (mirrorEdges entry_id wlist (edgesOf entry)).map (fun w' => (entry, w'))

/-! ## proc.patch_vocab -/

/-- The patch functions passed to `patch_vocab` by the repair pipeline. -/
inductive Patch : Type where
  | verify : Patch
  | mirror : Patch
deriving DecidableEq, Repr

/-- Apply one patch function to `(id, entry)` against the registry. -/
def applyPatch : Patch → String → Entry → Wlist → Option (Entry × Wlist)
  | .verify, _, e, w => some (_verify_relations e w, w)
  | .mirror, id, e, w => _mirror_relations id e w

/-- The inner loop of `proc.patch_vocab`
(`for func in functions: vocab[_id] = func(_id, entry, vocab)`), recording
each `(entry id, function)` call made.  On failure the calls made so far
(including the failing one) are kept. -/
def runPatches (id : String) (acc : Entry × Wlist) :
    List Patch → Option (Entry × Wlist) × List (String × Patch)
  | [] => (some acc, [])
  | f :: rest =>
      match applyPatch f id acc.1 acc.2 with
      | none => (none, [(id, f)])
      | some (e', w') =>
          let next := runPatches id (e', setKey w' id e') rest
          (next.1, (id, f) :: next.2)

/-- The outer loop of `proc.patch_vocab`
(`for _id, entry in vocab.items(): ...`), over a fixed list of ids. -/
def runVocab (funcs : List Patch) :
    List String → Wlist → Option Wlist × List (String × Patch)
  | [], w => (some w, [])
  | id :: ids, w =>
      match runPatches id ((getKey? w id).getD [], w) funcs with
      | (none, tr) => (none, tr)
      | (some (_, w'), tr) =>
          let next := runVocab funcs ids w'
          (next.1, tr ++ next.2)

/-- `proc.patch_vocab`, instrumented with the list of
`(entry id, patch function)` applications it performs, in order. -/
def patch_vocab_run (w : Wlist) (funcs : List Patch) :
    Option Wlist × List (String × Patch) :=
  runVocab funcs (keysOf w) w

/-- `proc.patch_vocab`: the resulting registry (`none` = a raised error). -/
def patch_vocab (w : Wlist) (funcs : List Patch) : Option Wlist :=
  (patch_vocab_run w funcs).1

/-- An application schedule is a registry-wide sweep per pass when every
verification call precedes every mirroring call. -/
def sweepOrdered (t : List (String × Patch)) : Bool :=
  (t.dropWhile (fun p => p.2 == Patch.verify)).all
    (fun p => p.2 == Patch.mirror)

/-! ## inserters.py

A target XML element is modelled by the stores the three insertion
function pairs read and write through their CSS selectors:
`rels` holds the `(xr/@type, ref/@target)` pairs of an `<entry>`,
`cits` its `(cit/@xml:lang, quote text)` translation pairs, and
`date` the optional `<date>` element of a `<category>/<catDesc>` with
its optional `from`/`to` attributes.  `id` is the element's `xml:id`
(with the `tla` prefix already stripped, as `_get_id` produces it). -/

structure AedElem : Type where
  id : String
  rels : List (String × String)
  cits : List (String × String)
  date : Option (Option String × Option String)
deriving DecidableEq, Repr

/-- `inserters.DATERANGE_BOUNDS`. -/
def DATERANGE_BOUNDS : List (String × String) :=
  [("beginning", "from"), ("end", "to")]

/-- Python `value.strip() == \'\'`: a string strips to empty exactly when
every character is whitespace. -/
def isBlank (s : String) : Bool := s.data.all Char.isWhitespace

/-- `inserters._has_relation`: blank values match vacuously; otherwise
look for `entry > xr[type=predicate] > ref[target="tla{value}"]`. -/
def _has_relation (e : AedElem) (predicate value : String) : Bool :=
  if isBlank value then true
  else e.rels.contains (predicate, "tla" ++ value)

/-- `inserters._add_relation`: append a `ref` for the value under the
`xr` element of the predicate (created when absent); as a store of
`(type, target)` pairs this appends the new pair. -/
def _add_relation (e : AedElem) (predicate value : String) : Option AedElem :=
  some { e with rels := e.rels ++ [(predicate, "tla" ++ value)] }

/-- `inserters._has_translation`: blank values match vacuously; otherwise
look for a `quote` with the given text under a `cit` of the language. -/
def _has_translation (e : AedElem) (lang value : String) : Bool :=
  if isBlank value then true
  else e.cits.contains (lang, value)

/-- `inserters._add_translation`: append a `cit` with the quote under the
first `sense` (created when absent). -/
def _add_translation (e : AedElem) (lang value : String) : Option AedElem :=
  some { e with cits := e.cits ++ [(lang, value)] }

/-- `inserters._has_daterange`: look for
`category > catDesc > date[{attr}="{value}"]` where `attr` is the bound's
attribute name; there is no blank-value shortcut, and an unmapped bound
renders a selector (`date[None=...]`) that matches nothing. -/
def _has_daterange (e : AedElem) (pred value : String) : Bool :=
  match e.date, getKey? DATERANGE_BOUNDS pred with
  | some (f, _), some "from" => f == some value
  | some (_, t), some "to" => t == some value
  | _, _ => false

/-- `inserters._add_daterange`: ensure `catDesc > date` exists, then set
the bound's attribute to the value (overwriting any previous one).  An
unmapped bound makes Python set a `None` attribute key, which fails. -/
def _add_daterange (e : AedElem) (pred value : String) : Option AedElem :=
  let d := e.date.getD (none, none)
  match getKey? DATERANGE_BOUNDS pred with
  | some "from" => some { e with date := some (some value, d.2) }
  | some "to" => some { e with date := some (d.1, some value) }
  | _ => none

/-! ## proc.TargetDef.update -/

/-- `stats['entries'].add(_id)`: record an entry id (set semantics,
modelled as an ordered list without duplicates). -/
def insertId (s : List String) (id : String) : List String :=
  if id ∈ s then s else s ++ [id]

/-- Innermost loop of `TargetDef.update`
(`for value in values: if not has: add; stats += 1; entries.add(_id)`). -/
def insertValues (hasP : AedElem → String → String → Bool)
    (addP : AedElem → String → String → Option AedElem) (id t : String) :
    List String → AedElem → Nat → List String →
    Option (AedElem × Nat × List String)
  | [], e, n, s => some (e, n, s)
  | v :: vs, e, n, s =>
      if hasP e t v then insertValues hasP addP id t vs e n s
      else
        match addP e t v with
        | none => none
        | some e' => insertValues hasP addP id t vs e' (n + 1) (insertId s id)

/-- Middle loop of `TargetDef.update`
(`for _type, values in entries.get(_id, {}).get(property_name, {}).items()`). -/
def insertBag (hasP : AedElem → String → String → Bool)
    (addP : AedElem → String → String → Option AedElem) (id : String) :
    Props → AedElem → Nat → List String →
    Option (AedElem × Nat × List String)
  | [], e, n, s => some (e, n, s)
  | (t, vals) :: rest, e, n, s =>
      match insertValues hasP addP id t vals e n s with
      | none => none
      | some (e', n', s') => insertBag hasP addP id rest e' n' s'

/-- Outer loop of `TargetDef.update` over the document's elements.
`registry` is the source registry already projected to the insertion's
property name (id ↦ that property's bag). -/
def updateElems (registry : List (String × Props))
    (hasP : AedElem → String → String → Bool)
    (addP : AedElem → String → String → Option AedElem) :
    List AedElem → Nat → List String →
    Option (List AedElem × Nat × List String)
  | [], n, s => some ([], n, s)
  | e :: doc, n, s =>
      match insertBag hasP addP e.id ((getKey? registry e.id).getD []) e n s with
      | none => none
      | some (e', n', s') =>
          match updateElems registry hasP addP doc n' s' with
          | none => none
          | some (doc', n'', s'') => some (e' :: doc', n'', s'')

/-- `proc.TargetDef.update`: apply the insertion to every element, and
return the updated document with the statistics (elements inserted,
entries touched).  `none` models a raised exception. -/
def TargetDef_update (registry : List (String × Props))
    (hasP : AedElem → String → String → Bool)
    (addP : AedElem → String → String → Option AedElem)
    (doc : List AedElem) : Option (List AedElem × Nat × List String) :=
  updateElems registry hasP addP doc 0 []

/-! ## providers/bts.py -/

/-- The static historical-override table of
`bts.fill_in_missing_dateranges`, id ↦ (start, end) literals. -/
def missing_dateranges : List (String × String × String) :=
  [("MXWX4WG43ZHI7D4RLTGK3IBGXY", ("-5500", "  900")),
   ("FKLXKTC5RJFSZCBDU5HWK6KHGU", ("-5500", "  900")),
   ("GTIHALKZWJFTNCLZ3ITXK7HBXA", ("-5500", "  900")),
   ("DUVGWT7GSRCKDM5LFTGU6MZ3GY", ("-5500", "  641")),
   ("6YAAR2WRI5F6BLP6YMW3G67P6Q", ("-5500", "-5000")),
   ("FMNBFXWGA5C2TEXFRDXOGXBEPE", ("-5000", "-3900")),
   ("P5F2WOP6YZGBHK5KCSCP2UXJHM", ("-3900", "-3650")),
   ("WLIRCHQ3DRF4ZOTIREDVCPKC5A", ("-3650", "-3300")),
   ("IPXSCTKV4REDHIXWTZWDXVXJWY", ("-3300", "-3151")),
   ("MM4QYACJOJCCLJWBD6VAX2FLKE", ("-2135", "-1794")),
   ("JS32JKX2CNG25GZ3B6MGYMDU4I", ("-1070", " -656")),
   ("HYYNMJRFTVFIHB7JUA6M2QW3LQ", (" -332", "  -30")),
   ("D3R5CH5NZBDA7IZMCKKJPWYZKU", (" -900", "   -1")),
   ("FHZEINDCEJAOTHIVC35NYGMC2Q", ("    1", "  900"))]

/-- `bts.fill_in_missing_dateranges`, acting on the entry's `dates` bag:
for a listed id, `entry['dates'] |= {'beginning': [a0], 'end': [a1]}`
merges the two literal singleton lists into the bag (overwriting the
`beginning` and `end` keys); other ids pass through unchanged. -/
def fill_in_missing_dateranges (entry_id : String) (dates : Props) : Props :=
  match getKey? missing_dateranges entry_id with
  | some am => setKey (setKey dates "beginning" [am.1]) "end" [am.2]
  | none => dates

/-! ## validate/dates.py -/

/-- A `<category>` node of the date thesaurus: its own `<date from= to=>`
range and its child category nodes. -/
inductive DateNode : Type where
  | node : Int → Int → List DateNode → DateNode

/-- Python `min` over a nonempty list (first element as seed). -/
def listMin : List Int → Int
  | [] => 0
  | x :: xs => xs.foldl min x

/-- Python `max` over a nonempty list (first element as seed). -/
def listMax : List Int → Int
  | [] => 0
  | x :: xs => xs.foldl max x

/-- `validate.dates.daterange`: the node's own `(from, to)` range. -/
def daterange : DateNode → Int × Int
  | .node f t _ => (f, t)

mutual

/-- `validate.dates.child_range`: a leaf's descendant range is its own
range; otherwise aggregate min-of-starts / max-of-ends over the child
ranges of the children plus the node's own range. -/
def child_range : DateNode → Int × Int
  | .node f t [] => (f, t)
  | .node f t (c :: cs) =>
      let ranges := child_ranges (c :: cs) ++ [(f, t)]
      (listMin (ranges.map Prod.fst), listMax (ranges.map Prod.snd))

/-- `list(map(child_range, children))`. -/
def child_ranges : List DateNode → List (Int × Int)
  | [] => []
  | c :: cs => child_range c :: child_ranges cs

end

/-- `validate.dates.is_valid`: the descendant range nests inside the own
range and `abs(own.start * own.end) > 0`. -/
def is_valid (n : DateNode) : Bool :=
  let own := daterange n
  let cr := child_range n
  decide (own.1 ≤ cr.1) && decide (cr.1 ≤ cr.2) && decide (cr.2 ≤ own.2) &&
    decide (0 < (own.1 * own.2).natAbs)

/-! ## Association-list toolkit -/

theorem getKey?_cons {β : Type} (p : String × β) (l : List (String × β))
    (k : String) :
    getKey? (p :: l) k = if p.1 = k then some p.2 else getKey? l k := by
  by_cases h : p.1 = k <;> simp [getKey?, List.find?_cons, h]

theorem getKey?_setKey_self {β : Type} (l : List (String × β)) (k : String)
    (v : β) : getKey? (setKey l k v) k = some v := by
  induction l with
  | nil => simp [setKey, getKey?_cons, getKey?]
  | cons p rest ih =>
      by_cases h : p.1 = k
      · simp [setKey, h, getKey?_cons]
      · simp [setKey, h, getKey?_cons, ih]

theorem keysOf_cons {β : Type} (p : String × β) (l : List (String × β)) :
    keysOf (p :: l) = p.1 :: keysOf l := rfl

theorem getKey?_setKey_ne {β : Type} (l : List (String × β)) (k k' : String)
    (v : β) (h : k' ≠ k) : getKey? (setKey l k v) k' = getKey? l k' := by
  induction l with
  | nil =>
      rw [show setKey ([] : List (String × β)) k v = [(k, v)] from rfl,
        getKey?_cons, if_neg (fun hh => h hh.symm)]
  | cons p rest ih =>
      by_cases hp : p.1 = k
      · have hsk : setKey (p :: rest) k v = (k, v) :: rest := by
          simp only [setKey]; rw [if_pos hp]
        have hpk' : ¬ p.1 = k' := by rw [hp]; exact fun hh => h hh.symm
        rw [hsk, getKey?_cons, if_neg (fun hh => h hh.symm), getKey?_cons,
          if_neg hpk']
      · have hsk : setKey (p :: rest) k v = p :: setKey rest k v := by
          simp only [setKey]; rw [if_neg hp]
        rw [hsk, getKey?_cons, getKey?_cons, ih]

theorem containsKey_iff {β : Type} (l : List (String × β)) (k : String) :
    containsKey l k = true ↔ k ∈ keysOf l := by
  induction l with
  | nil => simp [containsKey, getKey?, keysOf]
  | cons p rest ih =>
      rw [keysOf_cons, List.mem_cons]
      by_cases h : p.1 = k
      · simp [containsKey, getKey?_cons, h]
      · rw [show containsKey (p :: rest) k = containsKey rest k by
          simp [containsKey, getKey?_cons, h]]
        rw [ih]
        constructor
        · exact fun hh => Or.inr hh
        · rintro (hh | hh)
          · exact absurd hh.symm h
          · exact hh

theorem keysOf_setKey {β : Type} (l : List (String × β)) (k : String) (v : β)
    (h : k ∈ keysOf l) : keysOf (setKey l k v) = keysOf l := by
  induction l with
  | nil => simp [keysOf] at h
  | cons p rest ih =>
      by_cases hp : p.1 = k
      · have hsk : setKey (p :: rest) k v = (k, v) :: rest := by
          simp only [setKey]; rw [if_pos hp]
        rw [hsk, keysOf_cons, keysOf_cons, hp]
      · have h' : k ∈ keysOf rest := by
          rw [keysOf_cons, List.mem_cons] at h
          rcases h with h1 | h1
          · exact absurd h1.symm hp
          · exact h1
        have hsk : setKey (p :: rest) k v = p :: setKey rest k v := by
          simp only [setKey]; rw [if_neg hp]
        rw [hsk, keysOf_cons, keysOf_cons, ih h']

theorem getKey?_mem {β : Type} {l : List (String × β)} {k : String} {v : β}
    (h : getKey? l k = some v) : (k, v) ∈ l := by
  induction l with
  | nil => simp [getKey?] at h
  | cons p rest ih =>
      rw [getKey?_cons] at h
      by_cases hp : p.1 = k
      · rw [if_pos hp] at h
        injection h with h
        have hpv : p = (k, v) := Prod.ext hp h
        rw [← hpv]
        exact List.mem_cons_self p rest
      · rw [if_neg hp] at h
        exact List.mem_cons_of_mem p (ih h)

theorem setKey_self_eq {β : Type} {l : List (String × β)} {k : String} {v : β}
    (h : getKey? l k = some v) : setKey l k v = l := by
  induction l with
  | nil => simp [getKey?] at h
  | cons p rest ih =>
      rw [getKey?_cons] at h
      by_cases hp : p.1 = k
      · rw [if_pos hp] at h
        injection h with h
        have hpv : p = (k, v) := Prod.ext hp h
        simp only [setKey]
        rw [if_pos hp, ← hpv]
      · rw [if_neg hp] at h
        simp only [setKey]
        rw [if_neg hp, ih h]

theorem getKey?_eq_none {β : Type} {l : List (String × β)} {k : String}
    (h : ¬ k ∈ keysOf l) : getKey? l k = none := by
  have := (containsKey_iff l k).not.mpr h
  unfold containsKey at this
  cases hg : getKey? l k with
  | none => rfl
  | some v => rw [hg] at this; simp at this

/-! ## INVERSE facts -/

theorem INVERSE_eq :
    INVERSE = [("partOf", "contains"), ("contains", "partOf"),
      ("predecessor", "successor"), ("successor", "predecessor"),
      ("rootOf", "root"), ("root", "rootOf"),
      ("referencedBy", "referencing"), ("referencing", "referencedBy")] := by
  rfl

theorem inverse_spec {p q : String} (h : getKey? INVERSE p = some q) :
    q ≠ "" ∧ getKey? INVERSE q = some p := by
  have hm := getKey?_mem h
  rw [INVERSE_eq] at hm
  simp only [List.mem_cons, List.mem_singleton, Prod.mk.injEq,
    List.not_mem_nil, or_false] at hm
  rcases hm with ⟨h1, h2⟩ | ⟨h1, h2⟩ | ⟨h1, h2⟩ | ⟨h1, h2⟩ | ⟨h1, h2⟩ |
    ⟨h1, h2⟩ | ⟨h1, h2⟩ | ⟨h1, h2⟩ <;> subst h1 <;> subst h2 <;>
    exact ⟨by decide, by decide⟩

/-! ## Edge-bag lemmas -/

theorem mem_edgesOf {props : Props} {P T : String} :
    (P, T) ∈ edgesOf props ↔ ∃ vs, (P, vs) ∈ props ∧ T ∈ vs := by
  unfold edgesOf
  simp only [List.mem_flatMap, List.mem_map, Prod.mk.injEq]
  constructor
  · rintro ⟨pv, hpv, v, hv, h1, h2⟩
    exact ⟨pv.2, by rw [← h1]; exact hpv, h2 ▸ hv⟩
  · rintro ⟨vs, hvs, hT⟩
    exact ⟨(P, vs), hvs, T, hT, rfl, rfl⟩

theorem edgesOf_cons (pv : String × List String) (props : Props) :
    edgesOf (pv :: props) = pv.2.map (fun v => (pv.1, v)) ++ edgesOf props :=
  rfl

theorem mem_map_pair {vs : List String} {q P T : String} :
    (P, T) ∈ vs.map (fun x => (q, x)) ↔ q = P ∧ T ∈ vs := by
  constructor
  · intro h
    rcases List.mem_map.mp h with ⟨x, hx, heq⟩
    injection heq with h1 h2
    exact ⟨h1, h2 ▸ hx⟩
  · rintro ⟨h1, h2⟩
    exact List.mem_map.mpr ⟨T, h2, by rw [h1]⟩

theorem propHas_cons {pv : String × List String} {props : Props}
    {P T : String} :
    propHas (pv :: props) P T ↔ (pv.1 = P ∧ T ∈ pv.2) ∨ propHas props P T := by
  unfold propHas
  rw [edgesOf_cons, List.mem_append, mem_map_pair]

theorem propHas_nil {P T : String} : ¬ propHas [] P T := by
  simp [propHas, edgesOf]

theorem propHas_verify {e : Entry} {w : Wlist} {P T : String} :
    propHas (_verify_relations e w) P T ↔
      propHas e P T ∧ containsKey w T = true := by
  induction e with
  | nil =>
      simp [propHas, _verify_relations, edgesOf]
  | cons pv rest ih =>
      have hv : _verify_relations (pv :: rest) w =
          (pv.1, pv.2.filter (fun v => containsKey w v)) ::
            _verify_relations rest w := rfl
      rw [hv, propHas_cons, propHas_cons, ih]
      constructor
      · rintro (⟨h1, h2⟩ | ⟨h, hc⟩)
        · rcases List.mem_filter.mp h2 with ⟨hT, hc⟩
          exact ⟨Or.inl ⟨h1, hT⟩, hc⟩
        · exact ⟨Or.inr h, hc⟩
      · rintro ⟨h1 | h1, hc⟩
        · exact Or.inl ⟨h1.1, List.mem_filter.mpr ⟨h1.2, hc⟩⟩
        · exact Or.inr ⟨h1, hc⟩

theorem propHas_setKey_extend (props : Props) (q v P T : String) :
    propHas (setKey props q (valsOf props q ++ [v])) P T ↔
      propHas props P T ∨ (P = q ∧ T = v) := by
  induction props with
  | nil =>
      have hv : valsOf ([] : Props) q = [] := rfl
      rw [hv, show setKey ([] : Props) q ([] ++ [v]) = [(q, [v])] from rfl,
        propHas_cons]
      simp only [List.mem_singleton]
      constructor
      · rintro (⟨h1, h2⟩ | h)
        · exact Or.inr ⟨h1.symm, h2⟩
        · exact absurd h propHas_nil
      · rintro (h | ⟨h1, h2⟩)
        · exact absurd h propHas_nil
        · exact Or.inl ⟨h1.symm, h2⟩
  | cons pv rest ih =>
      by_cases hp : pv.1 = q
      · have hv : valsOf (pv :: rest) q = pv.2 := by
          rw [valsOf, getKey?_cons, if_pos hp, Option.getD_some]
        have hsk : setKey (pv :: rest) q (valsOf (pv :: rest) q ++ [v]) =
            (q, pv.2 ++ [v]) :: rest := by
          rw [hv]; simp only [setKey]; rw [if_pos hp]
        rw [hsk, propHas_cons, propHas_cons]
        simp only [List.mem_append, List.mem_singleton]
        rw [hp]
        constructor
        · rintro (⟨h1, h2 | h2⟩ | h)
          · exact Or.inl (Or.inl ⟨h1, h2⟩)
          · exact Or.inr ⟨h1.symm, h2⟩
          · exact Or.inl (Or.inr h)
        · rintro ((⟨h1, h2⟩ | h) | ⟨h1, h2⟩)
          · exact Or.inl ⟨h1, Or.inl h2⟩
          · exact Or.inr h
          · exact Or.inl ⟨h1.symm, Or.inr h2⟩
      · have hv : valsOf (pv :: rest) q = valsOf rest q := by
          rw [valsOf, valsOf, getKey?_cons, if_neg hp]
        have hsk : setKey (pv :: rest) q (valsOf (pv :: rest) q ++ [v]) =
            pv :: setKey rest q (valsOf rest q ++ [v]) := by
          rw [hv]; simp only [setKey]; rw [if_neg hp]
        rw [hsk, propHas_cons, propHas_cons, ih]
        tauto

theorem propHas_rqp (props : Props) (q v P T : String) :
    propHas (register_qualified_property props q v) P T ↔
      propHas props P T ∨ (P = q ∧ T = v ∧ q ≠ "" ∧ v ≠ "") := by
  unfold register_qualified_property
  by_cases hg : q ≠ "" ∧ v ≠ ""
  · rw [if_pos hg, propHas_setKey_extend]
    tauto
  · rw [if_neg hg]
    tauto

theorem hasEdge_mem (w : Wlist) (e P T : String) (h : hasEdge w e P T) :
    e ∈ keysOf w := by
  by_contra hc
  unfold hasEdge entryOf at h
  rw [getKey?_eq_none hc] at h
  simp [propHas, edgesOf] at h

/-! ## C5: vacuous blank-value match -/

/-- C5 counterexample: the claim says `has(node, qualifier, "")` is true
for every node/qualifier and every property kind, but `_has_daterange`
has no blank-value shortcut: on a `<category>` without a `<date>` element
it returns `False` for the empty value. -/
theorem has_daterange_blank_counterexample :
    _has_daterange ⟨"x", [], [], none⟩ "beginning" "" = false := by
  decide

/-- C5 (amended): a blank (empty or whitespace-only) value matches
vacuously for the relation and translation property kinds; the date-range
kind has no such shortcut. -/
theorem vacuous_match_amended (e : AedElem) (q v : String)
    (h : isBlank v = true) :
    _has_relation e q v = true ∧ _has_translation e q v = true := by
  unfold _has_relation _has_translation
  rw [if_pos h, if_pos h]
  exact ⟨rfl, rfl⟩

/-- Witness for C5's amended theorem at a concrete element and a
whitespace-only value. -/
theorem vacuous_match_amended_witness :
    (isBlank " " = true) ∧
      (_has_relation ⟨"x", [("partOf", "tla3")], [], none⟩ "root" " " = true ∧
       _has_translation ⟨"x", [("partOf", "tla3")], [], none⟩ "de" " " = true) :=
  ⟨by decide, vacuous_match_amended _ _ _ (by decide)⟩

/-! ## C6: the historical-override table overwrites -/

/-- C6 counterexample: the claim says an entry that already carries
extracted beginning/end values keeps them, but for the listed id
`FMNBFXWGA5C2TEXFRDXOGXBEPE` the resolver replaces the extracted
`beginning = ["-250"]` with the table value `["-5000"]` (exactly the
behaviour the function's own doctest shows). -/
theorem fill_in_missing_dateranges_counterexample :
    fill_in_missing_dateranges "FMNBFXWGA5C2TEXFRDXOGXBEPE"
        [("beginning", ["-250"]), ("end", ["-201"])] =
      [("beginning", ["-5000"]), ("end", ["-3900"])] ∧
    getKey? (fill_in_missing_dateranges "FMNBFXWGA5C2TEXFRDXOGXBEPE"
        [("beginning", ["-250"]), ("end", ["-201"])]) "beginning" ≠
      some ["-250"] := by
  decide

/-- C6 (amended): for every id listed in the static override table the
resolver unconditionally replaces the `beginning` and `end` values of the
`dates` bag with the table literals — also when extracted values are
already present — while every other key of the bag is left unchanged. -/
theorem fill_in_missing_dateranges_overwrites (id : String) (dates : Props)
    (am : String × String) (h : getKey? missing_dateranges id = some am) :
    getKey? (fill_in_missing_dateranges id dates) "beginning" = some [am.1] ∧
    getKey? (fill_in_missing_dateranges id dates) "end" = some [am.2] ∧
    ∀ k, k ≠ "beginning" → k ≠ "end" →
      getKey? (fill_in_missing_dateranges id dates) k = getKey? dates k := by
  unfold fill_in_missing_dateranges
  rw [h]
  refine ⟨?_, ?_, ?_⟩
  · rw [getKey?_setKey_ne _ _ _ _ (by decide), getKey?_setKey_self]
  · rw [getKey?_setKey_self]
  · intro k hk1 hk2
    rw [getKey?_setKey_ne _ _ _ _ hk2, getKey?_setKey_ne _ _ _ _ hk1]

/-- Witness for C6's amended theorem at a listed id whose `dates` bag
already has a `beginning` value and an unrelated key. -/
theorem fill_in_missing_dateranges_overwrites_witness :
    getKey? (fill_in_missing_dateranges "MM4QYACJOJCCLJWBD6VAX2FLKE"
        [("beginning", ["-123"]), ("note", ["keep"])]) "beginning" =
      some ["-2135"] ∧
    getKey? (fill_in_missing_dateranges "MM4QYACJOJCCLJWBD6VAX2FLKE"
        [("beginning", ["-123"]), ("note", ["keep"])]) "end" =
      some ["-1794"] ∧
    getKey? (fill_in_missing_dateranges "MM4QYACJOJCCLJWBD6VAX2FLKE"
        [("beginning", ["-123"]), ("note", ["keep"])]) "note" =
      getKey? [("beginning", ["-123"]), ("note", ["keep"])] "note" := by
  have h := fill_in_missing_dateranges_overwrites "MM4QYACJOJCCLJWBD6VAX2FLKE"
    [("beginning", ["-123"]), ("note", ["keep"])] ("-2135", "-1794")
    (by decide)
  exact ⟨h.1, h.2.1, h.2.2 "note" (by decide) (by decide)⟩

/-! ## C7: the validity predicate -/

/-- C7: `is_valid` holds iff the descendant range nests inside the own
range and the own range's product is nonzero (the all-zero sentinel is
never valid; `abs(x) > 0` is exactly `x ≠ 0`). -/
theorem is_valid_iff (n : DateNode) :
    is_valid n = true ↔
      ((daterange n).1 ≤ (child_range n).1 ∧
       (child_range n).1 ≤ (child_range n).2 ∧
       (child_range n).2 ≤ (daterange n).2 ∧
       (daterange n).1 * (daterange n).2 ≠ 0) := by
  unfold is_valid
  simp only [Bool.and_eq_true, decide_eq_true_eq, Int.natAbs_pos]
  tauto

/-! ## C8: the worked validation example -/

/-- C8 counterexample: for the node with own range `(-600, 0)` and two
leaf children `(-900, -700)` and `(-50, -1)`, the computed descendant
range is `(-900, 0)` — the node's own range (end `0`) participates in the
aggregate — not `(-900, -1)` as the claim states. -/
theorem child_range_example_counterexample :
    child_range (DateNode.node (-600) 0
        [DateNode.node (-900) (-700) [], DateNode.node (-50) (-1) []]) ≠
      ((-900 : Int), (-1 : Int)) := by
  decide

/-- C8 (amended): for that node the descendant range is `(-900, 0)` and
`is_valid` is false (both because `-900 < -600` and because the own
range's product `(-600) * 0` is zero). -/
theorem child_range_example_amended :
    child_range (DateNode.node (-600) 0
        [DateNode.node (-900) (-700) [], DateNode.node (-50) (-1) []]) =
      ((-900 : Int), (0 : Int)) ∧
    is_valid (DateNode.node (-600) 0
        [DateNode.node (-900) (-700) [], DateNode.node (-50) (-1) []]) =
      false := by
  decide

/-! ## The mirroring edge loop, step by step -/

theorem mirrorEdges_cons_self {id p v : String} {rest : List (String × String)}
    {w : Wlist} (hv : v = id) :
    mirrorEdges id w ((p, v) :: rest) = mirrorEdges id w rest := by
  simp [mirrorEdges, hv]

theorem mirrorEdges_cons_none {id p v : String} {rest : List (String × String)}
    {w : Wlist} (hv : v ≠ id) (hinv : getKey? INVERSE p = none) :
    mirrorEdges id w ((p, v) :: rest) = none := by
  simp [mirrorEdges, hv, hinv]

theorem mirrorEdges_cons_missing {id p v inv : String}
    {rest : List (String × String)} {w : Wlist} (hv : v ≠ id)
    (hinv : getKey? INVERSE p = some inv) (hw : getKey? w v = none) :
    mirrorEdges id w ((p, v) :: rest) = mirrorEdges id w rest := by
  simp [mirrorEdges, hv, hinv, hw]

theorem mirrorEdges_cons_write {id p v inv : String} {tprops : Props}
    {rest : List (String × String)} {w : Wlist} (hv : v ≠ id)
    (hinv : getKey? INVERSE p = some inv) (hw : getKey? w v = some tprops) :
    mirrorEdges id w ((p, v) :: rest) =
      mirrorEdges id
        (setKey w v (register_qualified_property tprops inv id)) rest := by
  simp [mirrorEdges, hv, hinv, hw]

/-- Exhaustive case analysis of one successful step of the edge loop. -/
theorem mirrorEdges_cons_cases {id p v : String}
    {rest : List (String × String)} {w w' : Wlist}
    (h : mirrorEdges id w ((p, v) :: rest) = some w') :
    (v = id ∧ mirrorEdges id w rest = some w') ∨
    (v ≠ id ∧ ∃ inv, getKey? INVERSE p = some inv ∧
      ((getKey? w v = none ∧ mirrorEdges id w rest = some w') ∨
       (∃ tprops, getKey? w v = some tprops ∧
          mirrorEdges id
            (setKey w v (register_qualified_property tprops inv id)) rest =
            some w'))) := by
  by_cases hv : v = id
  · rw [mirrorEdges_cons_self hv] at h
    exact Or.inl ⟨hv, h⟩
  · cases hinv : getKey? INVERSE p with
    | none => rw [mirrorEdges_cons_none hv hinv] at h; cases h
    | some inv =>
        cases hw : getKey? w v with
        | none =>
            rw [mirrorEdges_cons_missing hv hinv hw] at h
            exact Or.inr ⟨hv, inv, rfl, Or.inl ⟨rfl, h⟩⟩
        | some tprops =>
            rw [mirrorEdges_cons_write hv hinv hw] at h
            exact Or.inr ⟨hv, inv, rfl, Or.inr ⟨tprops, rfl, h⟩⟩

/-- Reading an entry of a registry updated by one mirror write. -/
theorem hasEdge_setKey_rqp {w : Wlist} {v : String} {tprops : Props}
    {inv id a Q T : String} (hw : getKey? w v = some tprops) :
    hasEdge (setKey w v (register_qualified_property tprops inv id)) a Q T ↔
      (if a = v then propHas (register_qualified_property tprops inv id) Q T
       else hasEdge w a Q T) := by
  by_cases hav : a = v
  · rw [if_pos hav, hav]
    unfold hasEdge entryOf
    rw [getKey?_setKey_self, Option.getD_some]
  · rw [if_neg hav]
    unfold hasEdge entryOf
    rw [getKey?_setKey_ne _ _ _ _ hav]

/-- The edge loop never changes the key list of the registry. -/
theorem mirrorEdges_keys {id : String} :
    ∀ (E : List (String × String)) (w w' : Wlist),
      mirrorEdges id w E = some w' → keysOf w' = keysOf w := by
  intro E
  induction E with
  | nil =>
      intro w w' h
      rw [show mirrorEdges id w [] = some w from rfl] at h
      injection h with h
      rw [h]
  | cons pv rest ih =>
      intro w w' h
      obtain ⟨p, v⟩ := pv
      rcases mirrorEdges_cons_cases h with ⟨_, h'⟩ |
        ⟨hv, inv, hinv, ⟨_, h'⟩ | ⟨tprops, hw, h'⟩⟩
      · exact ih w w' h'
      · exact ih w w' h'
      · rw [ih _ w' h']
        exact keysOf_setKey _ _ _
          ((containsKey_iff _ _).mp (by rw [containsKey, hw]; rfl))

/-- The edge loop only ever appends edges: membership is monotone. -/
theorem mirrorEdges_mono {id a Q T : String} :
    ∀ (E : List (String × String)) (w w' : Wlist),
      mirrorEdges id w E = some w' → hasEdge w a Q T → hasEdge w' a Q T := by
  intro E
  induction E with
  | nil =>
      intro w w' h ha
      rw [show mirrorEdges id w [] = some w from rfl] at h
      injection h with h
      rw [h] at ha
      exact ha
  | cons pv rest ih =>
      intro w w' h ha
      obtain ⟨p, v⟩ := pv
      rcases mirrorEdges_cons_cases h with ⟨_, h'⟩ |
        ⟨hv, inv, hinv, ⟨_, h'⟩ | ⟨tprops, hw, h'⟩⟩
      · exact ih w w' h' ha
      · exact ih w w' h' ha
      · refine ih _ w' h' ?_
        rw [hasEdge_setKey_rqp hw]
        by_cases hav : a = v
        · rw [if_pos hav]
          rw [propHas_rqp]
          refine Or.inl ?_
          unfold hasEdge entryOf at ha
          rw [hav, hw, Option.getD_some] at ha
          exact ha
        · rw [if_neg hav]
          exact ha

/-- The edge loop never touches the entry of the id being mirrored. -/
theorem mirrorEdges_frame {id : String} :
    ∀ (E : List (String × String)) (w w' : Wlist),
      mirrorEdges id w E = some w' → getKey? w' id = getKey? w id := by
  intro E
  induction E with
  | nil =>
      intro w w' h
      rw [show mirrorEdges id w [] = some w from rfl] at h
      injection h with h
      rw [h]
  | cons pv rest ih =>
      intro w w' h
      obtain ⟨p, v⟩ := pv
      rcases mirrorEdges_cons_cases h with ⟨_, h'⟩ |
        ⟨hv, inv, hinv, ⟨_, h'⟩ | ⟨tprops, hw, h'⟩⟩
      · exact ih w w' h'
      · exact ih w w' h'
      · rw [ih _ w' h', getKey?_setKey_ne _ _ _ _ (fun hh => hv hh.symm)]

/-- Completeness of mirroring: every processed edge `(P, T)` with an
existing target `T ≠ id` leaves the inverse edge `T —inverse(P)→ id` in
the final registry (for a nonempty `id`, as `register_qualified_property`
drops falsy values). -/
theorem mirrorEdges_complete {id P T : String} (hid : id ≠ "") (hT : T ≠ id) :
    ∀ (E : List (String × String)) (w w' : Wlist),
      mirrorEdges id w E = some w' → (P, T) ∈ E → containsKey w T = true →
      ∃ Q, getKey? INVERSE P = some Q ∧ hasEdge w' T Q id := by
  intro E
  induction E with
  | nil =>
      intro w w' _ hmem _
      exact absurd hmem (List.not_mem_nil _)
  | cons pv rest ih =>
      intro w w' h hmem hck
      obtain ⟨p, v⟩ := pv
      rcases List.mem_cons.mp hmem with heq | hrest
      · -- the head is the edge in question
        injection heq with hP hv'
        subst hP
        subst hv'
        rcases mirrorEdges_cons_cases h with ⟨hv, _⟩ |
          ⟨hv, inv, hinv, ⟨hw, _⟩ | ⟨tprops, hw, h'⟩⟩
        · exact absurd hv hT
        · rw [containsKey, hw] at hck
          cases hck
        · refine ⟨inv, hinv, ?_⟩
          refine mirrorEdges_mono _ _ w' h' ?_
          rw [hasEdge_setKey_rqp hw, if_pos rfl, propHas_rqp]
          exact Or.inr ⟨rfl, rfl, (inverse_spec hinv).1, hid⟩
      · -- the edge in question sits further down the list
        rcases mirrorEdges_cons_cases h with ⟨_, h'⟩ |
          ⟨hv, inv, hinv, ⟨_, h'⟩ | ⟨tprops, hw, h'⟩⟩
        · exact ih w w' h' hrest hck
        · exact ih w w' h' hrest hck
        · refine ih _ w' h' hrest ?_
          rw [containsKey_iff] at hck ⊢
          rw [keysOf_setKey _ _ _
            ((containsKey_iff _ _).mp (by rw [containsKey, hw]; rfl))]
          exact hck

/-- Inversion of mirroring: an edge of the final registry is either an
original edge or an inverse edge `a —inverse(P)→ id` created for a
processed edge `(P, a)` with `a ≠ id`. -/
theorem mirrorEdges_new {id a Q T : String} :
    ∀ (E : List (String × String)) (w w' : Wlist),
      mirrorEdges id w E = some w' → hasEdge w' a Q T →
      hasEdge w a Q T ∨
        (T = id ∧ a ≠ id ∧ ∃ P, (P, a) ∈ E ∧ getKey? INVERSE P = some Q) := by
  intro E
  induction E with
  | nil =>
      intro w w' h ha
      rw [show mirrorEdges id w [] = some w from rfl] at h
      injection h with h
      rw [← h] at ha
      exact Or.inl ha
  | cons pv rest ih =>
      intro w w' h ha
      obtain ⟨p, v⟩ := pv
      have widen : ∀ P, (P, a) ∈ rest → (P, a) ∈ (p, v) :: rest :=
        fun P hm => List.mem_cons_of_mem _ hm
      rcases mirrorEdges_cons_cases h with ⟨_, h'⟩ |
        ⟨hv, inv, hinv, ⟨_, h'⟩ | ⟨tprops, hw, h'⟩⟩
      · rcases ih w w' h' ha with h1 | ⟨h1, h2, P, h3, h4⟩
        · exact Or.inl h1
        · exact Or.inr ⟨h1, h2, P, widen P h3, h4⟩
      · rcases ih w w' h' ha with h1 | ⟨h1, h2, P, h3, h4⟩
        · exact Or.inl h1
        · exact Or.inr ⟨h1, h2, P, widen P h3, h4⟩
      · rcases ih _ w' h' ha with h1 | ⟨h1, h2, P, h3, h4⟩
        · rw [hasEdge_setKey_rqp hw] at h1
          by_cases hav : a = v
          · rw [if_pos hav, propHas_rqp] at h1
            rcases h1 with h1 | ⟨hQ, hT', _, hid⟩
            · refine Or.inl ?_
              unfold hasEdge entryOf
              rw [hav, hw, Option.getD_some]
              exact h1
            · refine Or.inr ⟨hT', by rw [hav]; exact hv, p,
                by rw [hav]; exact List.mem_cons_self _ _, ?_⟩
              rw [hinv, hQ]
          · rw [if_neg hav] at h1
            exact Or.inl h1
        · exact Or.inr ⟨h1, h2, P, widen P h3, h4⟩

/-- Failure of mirroring: a processed edge with a target other than the
entry itself and an unmapped predicate makes the edge loop fail. -/
theorem mirrorEdges_fail {id P T : String} (hT : T ≠ id)
    (hinv : getKey? INVERSE P = none) :
    ∀ (E : List (String × String)) (w : Wlist),
      (P, T) ∈ E → mirrorEdges id w E = none := by
  intro E
  induction E with
  | nil =>
      intro w hmem
      exact absurd hmem (List.not_mem_nil _)
  | cons pv rest ih =>
      intro w hmem
      obtain ⟨p, v⟩ := pv
      rcases List.mem_cons.mp hmem with heq | hrest
      · injection heq with hP hv'
        subst hP
        subst hv'
        exact mirrorEdges_cons_none hT hinv
      · by_cases hv : v = id
        · rw [mirrorEdges_cons_self hv]
          exact ih w hrest
        · cases hinv' : getKey? INVERSE p with
          | none => exact mirrorEdges_cons_none hv hinv'
          | some inv =>
              cases hw : getKey? w v with
              | none =>
                  rw [mirrorEdges_cons_missing hv hinv' hw]
                  exact ih w hrest
              | some tprops =>
                  rw [mirrorEdges_cons_write hv hinv' hw]
                  exact ih _ hrest

/-! ## C9: unmapped predicates during mirroring -/

/-- C9 counterexample: the claim says any relation with an unmapped
predicate makes the run fail fatally, but the self-reference check
(`if value == entry_id: continue`) fires before the `INVERSE` lookup, so
an entry whose unmapped-predicate relation only targets the entry itself
passes through the whole repair run without an error — the edge is
silently skipped. -/
theorem unmapped_predicate_selfloop_counterexample :
    getKey? INVERSE "weird" = none ∧
    hasEdge [("E", [("weird", ["E"])])] "E" "weird" "E" ∧
    patch_vocab [("E", [("weird", ["E"])])] [Patch.verify, Patch.mirror] =
      some [("E", [("weird", ["E"])])] := by
  decide

/-- C9 (amended): during the mirroring pass an unmapped predicate raises
a fatal error (`KeyError`) as soon as the relation has a target other
than the entry itself; targets equal to the entry id are skipped before
the lookup. -/
theorem unmapped_predicate_fatal_amended (id : String) (e : Entry)
    (w : Wlist) (P T : String) (hPT : propHas e P T) (hT : T ≠ id)
    (hinv : getKey? INVERSE P = none) :
    _mirror_relations id e w = none := by
  unfold _mirror_relations
  rw [mirrorEdges_fail hT hinv (edgesOf e) w hPT]
  rfl

/-- Witness for C9's amended theorem: a concrete entry with an unmapped
predicate pointing at another entry makes `_mirror_relations` fail. -/
theorem unmapped_predicate_fatal_amended_witness :
    propHas [("weird", ["X"])] "weird" "X" ∧ "X" ≠ "E" ∧
    getKey? INVERSE "weird" = none ∧
    _mirror_relations "E" [("weird", ["X"])]
      [("E", [("weird", ["X"])]), ("X", [])] = none :=
  ⟨by decide, by decide, by decide,
    unmapped_predicate_fatal_amended "E" _ _ "weird" "X" (by decide)
      (by decide) (by decide)⟩

/-! ## C10: mirroring never touches the entry being mirrored -/

/-- C10: `_mirror_relations` returns the entry's own relations bag
unchanged, and the registry slot of the entry being mirrored is left
exactly as it was: mirroring only appends inverse edges to *other*
entries' bags (edges targeting the entry itself are skipped). -/
theorem mirror_own_entry_frame (id : String) (e : Entry) (w : Wlist)
    (r : Entry × Wlist) (h : _mirror_relations id e w = some r) :
    r.1 = e ∧ getKey? r.2 id = getKey? w id := by
  unfold _mirror_relations at h
  cases hme : mirrorEdges id w (edgesOf e) with
  | none => rw [hme] at h; cases h
  | some w' =>
      rw [hme] at h
      injection h with h
      rw [← h]
      exact ⟨rfl, mirrorEdges_frame (edgesOf e) w w' hme⟩

/-- Witness for C10 at a concrete entry and registry. -/
theorem mirror_own_entry_frame_witness :
    _mirror_relations "1" [("root", ["2"])]
        [("1", [("root", ["2"])]), ("2", [])] =
      some ([("root", ["2"])],
        [("1", [("root", ["2"])]), ("2", [("rootOf", ["1"])])]) ∧
    (([("root", ["2"])],
        [("1", [("root", ["2"])]), ("2", [("rootOf", ["1"])])]) :
          Entry × Wlist).1 = [("root", ["2"])] ∧
    getKey? (([("root", ["2"])],
        [("1", [("root", ["2"])]), ("2", [("rootOf", ["1"])])]) :
          Entry × Wlist).2 "1" =
      getKey? [("1", [("root", ["2"])]), ("2", [])] "1" :=
  ⟨by decide, mirror_own_entry_frame "1" _ _ _ (by decide)⟩

/-! ## C1: the application schedule of patch_vocab -/

/-- On success, the inner loop applies every patch function to the one
entry, in order. -/
theorem runPatches_trace (id : String) :
    ∀ (funcs : List Patch) (acc : Entry × Wlist) (r : Entry × Wlist),
      (runPatches id acc funcs).1 = some r →
      (runPatches id acc funcs).2 = funcs.map (fun f => (id, f)) := by
  intro funcs
  induction funcs with
  | nil => intro acc r _; rfl
  | cons f rest ih =>
      intro acc r h
      cases happ : applyPatch f id acc.1 acc.2 with
      | none =>
          simp only [runPatches, happ] at h
          exact Option.noConfusion h
      | some ew =>
          obtain ⟨e', w'⟩ := ew
          simp only [runPatches, happ] at h ⊢
          rw [List.map_cons]
          rw [ih (e', setKey w' id e') r h]

/-- On success, the outer loop visits the ids in order, applying the full
function pipeline to each entry before moving to the next. -/
theorem runVocab_trace (funcs : List Patch) :
    ∀ (ids : List String) (w w' : Wlist),
      (runVocab funcs ids w).1 = some w' →
      (runVocab funcs ids w).2 =
        ids.flatMap (fun id => funcs.map (fun f => (id, f))) := by
  intro ids
  induction ids with
  | nil => intro w w' _; rfl
  | cons id rest ih =>
      intro w w' h
      rcases hrp : runPatches id ((getKey? w id).getD [], w) funcs with ⟨o, tr⟩
      cases o with
      | none =>
          simp only [runVocab, hrp] at h
          exact Option.noConfusion h
      | some r =>
          obtain ⟨e₁, w₁⟩ := r
          simp only [runVocab, hrp] at h ⊢
          rw [List.flatMap_cons]
          have ht : tr = funcs.map (fun f => (id, f)) := by
            have h2 := runPatches_trace id funcs ((getKey? w id).getD [], w)
              (e₁, w₁) (by rw [hrp])
            rw [hrp] at h2
            exact h2
          rw [ht, ih w₁ w' h]

/-- C1 counterexample: on a two-entry registry the repair pipeline's
applications are interleaved per entry — entry `"1"` is verified *and*
mirrored before entry `"2"` is verified — so the schedule is not a
registry-wide sweep per pass. -/
theorem patch_vocab_not_sweep :
    (patch_vocab_run [("1", [("partOf", ["2"])]), ("2", [])]
        [Patch.verify, Patch.mirror]).2 =
      [("1", Patch.verify), ("1", Patch.mirror),
       ("2", Patch.verify), ("2", Patch.mirror)] ∧
    sweepOrdered (patch_vocab_run [("1", [("partOf", ["2"])]), ("2", [])]
        [Patch.verify, Patch.mirror]).2 = false := by
  decide

/-- C1 (amended): `patch_vocab` pipelines per entry: on every successful
run its application schedule visits each registry entry once, in
iteration order, applying the whole function list (verification, then
mirroring) to that entry before moving to the next one.  In particular
each entry's mirror step runs on that entry's own already-verified
relations. -/
theorem patch_vocab_schedule_per_entry (w : Wlist) (funcs : List Patch)
    (w' : Wlist) (h : patch_vocab w funcs = some w') :
    (patch_vocab_run w funcs).2 =
      (keysOf w).flatMap (fun id => funcs.map (fun f => (id, f))) :=
  runVocab_trace funcs (keysOf w) w w' h

/-! ## The repair-run invariant (towards C3 and C4) -/

/-- Reading a registry after overwriting one entry. -/
theorem hasEdge_setKey {w : Wlist} {id : String} {props : Entry}
    {a P T : String} :
    hasEdge (setKey w id props) a P T ↔
      (if a = id then propHas props P T else hasEdge w a P T) := by
  by_cases hai : a = id
  · rw [if_pos hai, hai]
    unfold hasEdge entryOf
    rw [getKey?_setKey_self, Option.getD_some]
  · rw [if_neg hai]
    unfold hasEdge entryOf
    rw [getKey?_setKey_ne _ _ _ _ hai]

/-- Unfolding of the inner patch loop for a two-function pipeline. -/
theorem runPatches_two (id : String) (acc : Entry × Wlist) (f g : Patch) :
    (runPatches id acc [f, g]).1 =
      (match applyPatch f id acc.1 acc.2 with
       | none => none
       | some (e', w') =>
           match applyPatch g id e' (setKey w' id e') with
           | none => none
           | some (e'', w'') => some (e'', setKey w'' id e'')) := by
  cases h1 : applyPatch f id acc.1 acc.2 with
  | none => simp [runPatches, h1]
  | some ew =>
      obtain ⟨e', w'⟩ := ew
      cases h2 : applyPatch g id e' (setKey w' id e') with
      | none => simp [runPatches, h1, h2]
      | some ew2 =>
          obtain ⟨e'', w''⟩ := ew2
          simp [runPatches, h1, h2]

/-- Unfolding of the inner patch loop for a one-function pipeline. -/
theorem runPatches_one (id : String) (acc : Entry × Wlist) (f : Patch) :
    (runPatches id acc [f]).1 =
      (match applyPatch f id acc.1 acc.2 with
       | none => none
       | some (e', w') => some (e', setKey w' id e')) := by
  cases h1 : applyPatch f id acc.1 acc.2 with
  | none => simp [runPatches, h1]
  | some ew =>
      obtain ⟨e', w'⟩ := ew
      simp [runPatches, h1]

/-- Invariant of the repair run after the entries of `S` have been
processed: the key list is unchanged, processed entries only reference
existing keys, and every non-self edge of a processed (nonempty-id) entry
has its inverse edge in the target's bag. -/
structure RInv (K : List String) (S : List String) (w : Wlist) : Prop where
  keys_eq : keysOf w = K
  targets : ∀ e, e ∈ S → ∀ P T, hasEdge w e P T → T ∈ K
  sym : ∀ e, e ∈ S → e ≠ "" → ∀ P T, hasEdge w e P T → T ≠ e →
      ∃ Q, getKey? INVERSE P = some Q ∧ hasEdge w T Q e

/-- Processing one entry with the verify-then-mirror pipeline preserves
the invariant and adds the entry to the processed set. -/
theorem repair_step {K S : List String} {id : String} {w : Wlist}
    (hid : id ∈ K) (hS : ∀ s, s ∈ S → s ∈ K) (hInv : RInv K S w)
    (r : Entry × Wlist)
    (hrun : (runPatches id ((getKey? w id).getD [], w)
      [Patch.verify, Patch.mirror]).1 = some r) :
    RInv K (S ++ [id]) r.2 := by
  have hkw : keysOf w = K := hInv.keys_eq
  have hidw : id ∈ keysOf w := by rw [hkw]; exact hid
  rw [runPatches_two] at hrun
  simp only [applyPatch] at hrun
  rw [_mirror_relations] at hrun
  set e₀ : Entry := (getKey? w id).getD [] with he₀
  set e₁ : Entry := _verify_relations e₀ w with he₁
  set w₁ : Wlist := setKey w id e₁ with hw₁
  cases hmir : mirrorEdges id w₁ (edgesOf e₁) with
  | none =>
      rw [hmir] at hrun
      exact Option.noConfusion hrun
  | some w₂ =>
      rw [hmir] at hrun
      simp only [Option.map_some'] at hrun
      injection hrun with hr
      rw [← hr]
      -- facts about the intermediate states
      have hk₁ : keysOf w₁ = K := by rw [hw₁, keysOf_setKey w id e₁ hidw, hkw]
      have hk₂ : keysOf w₂ = K := by
        rw [mirrorEdges_keys (edgesOf e₁) w₁ w₂ hmir, hk₁]
      have hg₁ : getKey? w₁ id = some e₁ := by rw [hw₁, getKey?_setKey_self]
      have hg₂ : getKey? w₂ id = some e₁ := by
        rw [mirrorEdges_frame (edgesOf e₁) w₁ w₂ hmir, hg₁]
      have hfinal : setKey w₂ id e₁ = w₂ := setKey_self_eq hg₂
      show RInv K (S ++ [id]) (e₁, setKey w₂ id e₁).2
      rw [show (e₁, setKey w₂ id e₁).2 = setKey w₂ id e₁ from rfl, hfinal]
      -- the verified entry only references existing keys
      have hver : ∀ P T, propHas e₁ P T → propHas e₀ P T ∧ T ∈ K := by
        intro P T h
        rcases propHas_verify.mp h with ⟨h1, h2⟩
        exact ⟨h1, by rw [← hkw]; exact (containsKey_iff w T).mp h2⟩
      refine ⟨hk₂, ?_, ?_⟩
      · -- targets
        intro e he P T hedge
        rcases mirrorEdges_new (edgesOf e₁) w₁ w₂ hmir hedge with hold |
          ⟨hTid, _, _⟩
        · rw [hw₁, hasEdge_setKey] at hold
          by_cases heid : e = id
          · rw [if_pos heid] at hold
            exact (hver P T hold).2
          · rw [if_neg heid] at hold
            have heS : e ∈ S := by
              rcases List.mem_append.mp he with h1 | h1
              · exact h1
              · exact absurd (List.mem_singleton.mp h1) heid
            exact hInv.targets e heS P T hold
        · rw [hTid]
          exact hid
      · -- mirror symmetry
        intro e he hne P T hedge hTe
        rcases mirrorEdges_new (edgesOf e₁) w₁ w₂ hmir hedge with hold |
          ⟨hTid, heid, P₀, hmem, hinv₀⟩
        · rw [hw₁, hasEdge_setKey] at hold
          by_cases heid : e = id
          · -- a freshly verified edge of the processed entry: mirroring
            -- has created its inverse
            rw [if_pos heid] at hold
            have hTne : T ≠ id := by rw [← heid]; exact hTe
            have hck : containsKey w₁ T = true := by
              rw [containsKey_iff, hk₁]
              exact (hver P T hold).2
            have hidne : id ≠ "" := by rw [← heid]; exact hne
            rcases mirrorEdges_complete hidne hTne (edgesOf e₁) w₁ w₂ hmir
              hold hck with ⟨Q, hq, hQ⟩
            refine ⟨Q, hq, ?_⟩
            rw [heid]
            exact hQ
          · -- an edge of an already processed entry: its inverse existed
            -- before this step and is preserved
            rw [if_neg heid] at hold
            have heS : e ∈ S := by
              rcases List.mem_append.mp he with h1 | h1
              · exact h1
              · exact absurd (List.mem_singleton.mp h1) heid
            rcases hInv.sym e heS hne P T hold hTe with ⟨Q, hq, hTQ⟩
            refine ⟨Q, hq, ?_⟩
            refine mirrorEdges_mono (edgesOf e₁) w₁ w₂ hmir ?_
            rw [hw₁, hasEdge_setKey]
            by_cases hTid : T = id
            · rw [if_pos hTid]
              rw [propHas_verify]
              constructor
              · unfold hasEdge at hTQ
                rw [hTid] at hTQ
                exact hTQ
              · rw [containsKey_iff, hkw]
                exact hS e heS
            · rw [if_neg hTid]
              exact hTQ
        · -- an inverse edge created by this very mirror step: the forward
          -- edge sits in the processed entry's (final) bag
          rcases inverse_spec hinv₀ with ⟨_, hback⟩
          refine ⟨P₀, hback, ?_⟩
          rw [hTid]
          unfold hasEdge entryOf
          rw [hg₂, Option.getD_some]
          exact hmem

/-- Witness for C1's amended theorem on a concrete two-entry registry. -/
theorem patch_vocab_schedule_per_entry_witness :
    patch_vocab [("1", [("partOf", ["2"])]), ("2", [])]
        [Patch.verify, Patch.mirror] =
      some [("1", [("partOf", ["2", "2"])]), ("2", [("contains", ["1"])])] ∧
    (patch_vocab_run [("1", [("partOf", ["2"])]), ("2", [])]
        [Patch.verify, Patch.mirror]).2 =
      (keysOf [("1", [("partOf", ["2"])]), (("2" : String), ([] : Entry))]).flatMap
        (fun id => [Patch.verify, Patch.mirror].map (fun f => (id, f))) :=
  ⟨by decide,
    patch_vocab_schedule_per_entry _ _
      [("1", [("partOf", ["2", "2"])]), ("2", [("contains", ["1"])])]
      (by decide)⟩

/-- The invariant carried over the whole outer loop of the repair run. -/
theorem runVocab_RInv (K : List String) :
    ∀ (ids : List String) (S : List String) (w : Wlist),
      (∀ s, s ∈ S → s ∈ K) → (∀ i, i ∈ ids → i ∈ K) → RInv K S w →
      ∀ w', (runVocab [Patch.verify, Patch.mirror] ids w).1 = some w' →
      RInv K (S ++ ids) w' := by
  intro ids
  induction ids with
  | nil =>
      intro S w _ _ hInv w' h
      rw [show (runVocab [Patch.verify, Patch.mirror] [] w).1 = some w
        from rfl] at h
      injection h with h
      rw [← h, List.append_nil]
      exact hInv
  | cons id rest ih =>
      intro S w hS hids hInv w' h
      rcases hrp : runPatches id ((getKey? w id).getD [], w)
        [Patch.verify, Patch.mirror] with ⟨o, tr⟩
      cases o with
      | none =>
          simp only [runVocab, hrp] at h
          exact Option.noConfusion h
      | some r =>
          obtain ⟨e₁, wnext⟩ := r
          simp only [runVocab, hrp] at h
          have hstep := repair_step (hids id (List.mem_cons_self _ _)) hS hInv
            (e₁, wnext) (by rw [hrp])
          have hS' : ∀ s, s ∈ S ++ [id] → s ∈ K := by
            intro s hs
            rcases List.mem_append.mp hs with h1 | h1
            · exact hS s h1
            · rw [List.mem_singleton.mp h1]
              exact hids id (List.mem_cons_self _ _)
          have hids' : ∀ i, i ∈ rest → i ∈ K :=
            fun i hi => hids i (List.mem_cons_of_mem _ hi)
          have hres := ih (S ++ [id]) wnext hS' hids' hstep w' h
          rwa [List.append_assoc, List.singleton_append] at hres

/-- The verification-only sweep: after processing, every processed
entry's targets are registry keys, and the key list is unchanged. -/
theorem runVocab_verify_targets (K : List String) :
    ∀ (ids : List String) (S : List String) (w : Wlist),
      (∀ i, i ∈ ids → i ∈ K) → keysOf w = K →
      (∀ e, e ∈ S → ∀ P T, hasEdge w e P T → T ∈ K) →
      ∀ w', (runVocab [Patch.verify] ids w).1 = some w' →
      keysOf w' = K ∧
        (∀ e, e ∈ S ++ ids → ∀ P T, hasEdge w' e P T → T ∈ K) := by
  intro ids
  induction ids with
  | nil =>
      intro S w _ hkw htar w' h
      rw [show (runVocab [Patch.verify] [] w).1 = some w from rfl] at h
      injection h with h
      rw [← h, List.append_nil]
      exact ⟨hkw, htar⟩
  | cons id rest ih =>
      intro S w hids hkw htar w' h
      rcases hrp : runPatches id ((getKey? w id).getD [], w) [Patch.verify]
        with ⟨o, tr⟩
      cases o with
      | none =>
          simp only [runVocab, hrp] at h
          exact Option.noConfusion h
      | some r =>
          obtain ⟨e₁, wnext⟩ := r
          simp only [runVocab, hrp] at h
          have hr1 : (runPatches id ((getKey? w id).getD [], w)
              [Patch.verify]).1 = some (e₁, wnext) := by rw [hrp]
          rw [runPatches_one] at hr1
          simp only [applyPatch] at hr1
          injection hr1 with hr1
          injection hr1 with hre hrw
          have hidK : id ∈ keysOf w := by
            rw [hkw]
            exact hids id (List.mem_cons_self _ _)
          have hknext : keysOf wnext = K := by
            rw [← hrw, keysOf_setKey w id _ hidK, hkw]
          have htarnext : ∀ e, e ∈ S ++ [id] → ∀ P T,
              hasEdge wnext e P T → T ∈ K := by
            intro e he P T hedge
            rw [← hrw, hasEdge_setKey] at hedge
            by_cases heid : e = id
            · rw [if_pos heid] at hedge
              rcases propHas_verify.mp hedge with ⟨_, hc⟩
              have hmem := (containsKey_iff w T).mp hc
              rwa [hkw] at hmem
            · rw [if_neg heid] at hedge
              have heS : e ∈ S := by
                rcases List.mem_append.mp he with h1 | h1
                · exact h1
                · exact absurd (List.mem_singleton.mp h1) heid
              exact htar e heS P T hedge
          have hres := ih (S ++ [id]) wnext
            (fun i hi => hids i (List.mem_cons_of_mem _ hi)) hknext htarnext
            w' h
          rwa [List.append_assoc, List.singleton_append] at hres

/-! ## C3: mirror symmetry after the repair run -/

/-- C3: after a successful verification-plus-mirroring repair run over a
registry without an empty-string id, every non-self edge `E —P→ T` of the
final registry has its inverse edge `T —inverse(P)→ E`.  (The empty-id
restriction reflects `register_qualified_property`, which drops falsy
values; registry keys are BTS document ids and are never empty.) -/
theorem mirror_symmetry_after_repair (w w' : Wlist)
    (hne : ¬ "" ∈ keysOf w)
    (hrun : patch_vocab w [Patch.verify, Patch.mirror] = some w')
    (E T P : String) (hedge : hasEdge w' E P T) (hTE : T ≠ E) :
    ∃ Q, getKey? INVERSE P = some Q ∧ hasEdge w' T Q E := by
  have hInv0 : RInv (keysOf w) [] w :=
    ⟨rfl, fun e he => absurd he (List.not_mem_nil e),
      fun e he => absurd he (List.not_mem_nil e)⟩
  have hrun' : (runVocab [Patch.verify, Patch.mirror] (keysOf w) w).1 =
      some w' := hrun
  have hfin := runVocab_RInv (keysOf w) (keysOf w) [] w
    (fun s hs => absurd hs (List.not_mem_nil s)) (fun i hi => hi) hInv0
    w' hrun'
  rw [List.nil_append] at hfin
  have hE : E ∈ keysOf w := by
    have hmem := hasEdge_mem w' E P T hedge
    rwa [hfin.keys_eq] at hmem
  have hEne : E ≠ "" := fun hh => hne (by rw [← hh]; exact hE)
  exact hfin.sym E hE hEne P T hedge hTE

/-- Witness for C3 on a concrete registry: the final registry mirrors the
`"1" —root→ "2"` edge as `"2" —rootOf→ "1"`. -/
theorem mirror_symmetry_after_repair_witness :
    (¬ "" ∈ keysOf [("1", [("root", ["2"])]), (("2" : String), ([] : Entry))]) ∧
    patch_vocab [("1", [("root", ["2"])]), ("2", [])]
        [Patch.verify, Patch.mirror] =
      some [("1", [("root", ["2", "2"])]), ("2", [("rootOf", ["1"])])] ∧
    hasEdge [("1", [("root", ["2", "2"])]), ("2", [("rootOf", ["1"])])]
      "1" "root" "2" ∧
    ∃ Q, getKey? INVERSE "root" = some Q ∧
      hasEdge [("1", [("root", ["2", "2"])]), ("2", [("rootOf", ["1"])])]
        "2" Q "1" :=
  ⟨by decide, by decide, by decide,
    mirror_symmetry_after_repair
      [("1", [("root", ["2"])]), ("2", [])]
      [("1", [("root", ["2", "2"])]), ("2", [("rootOf", ["1"])])]
      (by decide) (by decide) "1" "2" "root" (by decide) (by decide)⟩

/-! ## C4: referential integrity -/

/-- C4: after the verification sweep alone, and after the full
verify-then-mirror repair run, every target id appearing in any entry's
relation list is a key of the registry. -/
theorem repair_referential_integrity (w w₁ w₂ : Wlist)
    (h₁ : patch_vocab w [Patch.verify] = some w₁)
    (h₂ : patch_vocab w [Patch.verify, Patch.mirror] = some w₂) :
    (∀ e P T, hasEdge w₁ e P T → T ∈ keysOf w₁) ∧
    (∀ e P T, hasEdge w₂ e P T → T ∈ keysOf w₂) := by
  constructor
  · have h₁' : (runVocab [Patch.verify] (keysOf w) w).1 = some w₁ := h₁
    have hres := runVocab_verify_targets (keysOf w) (keysOf w) [] w
      (fun i hi => hi) rfl (fun e he => absurd he (List.not_mem_nil e))
      w₁ h₁'
    intro e P T hedge
    have hE : e ∈ keysOf w := by
      have hmem := hasEdge_mem w₁ e P T hedge
      rwa [hres.1] at hmem
    have hT := hres.2 e (by rw [List.nil_append]; exact hE) P T hedge
    rw [hres.1]
    exact hT
  · have h₂' : (runVocab [Patch.verify, Patch.mirror] (keysOf w) w).1 =
        some w₂ := h₂
    have hInv0 : RInv (keysOf w) [] w :=
      ⟨rfl, fun e he => absurd he (List.not_mem_nil e),
        fun e he => absurd he (List.not_mem_nil e)⟩
    have hfin := runVocab_RInv (keysOf w) (keysOf w) [] w
      (fun s hs => absurd hs (List.not_mem_nil s)) (fun i hi => hi) hInv0
      w₂ h₂'
    rw [List.nil_append] at hfin
    intro e P T hedge
    have hE : e ∈ keysOf w := by
      have hmem := hasEdge_mem w₂ e P T hedge
      rwa [hfin.keys_eq] at hmem
    have hT := hfin.targets e hE P T hedge
    rw [hfin.keys_eq]
    exact hT

/-- Witness for C4 on a registry with a dangling target `"9"`: after
verification (and after the full run) every remaining target is a key. -/
theorem repair_referential_integrity_witness :
    "2" ∈ keysOf [("1", [("root", ["2"])]), (("2" : String), ([] : Entry))] ∧
    "1" ∈ keysOf [("1", [("root", ["2", "2"])]), ("2", [("rootOf", ["1"])])] :=
  ⟨(repair_referential_integrity
      [("1", [("root", ["2", "9"])]), ("2", [])]
      [("1", [("root", ["2"])]), ("2", [])]
      [("1", [("root", ["2", "2"])]), ("2", [("rootOf", ["1"])])]
      (by decide) (by decide)).1 "1" "root" "2" (by decide),
   (repair_referential_integrity
      [("1", [("root", ["2", "9"])]), ("2", [])]
      [("1", [("root", ["2"])]), ("2", [])]
      [("1", [("root", ["2", "2"])]), ("2", [("rootOf", ["1"])])]
      (by decide) (by decide)).2 "2" "rootOf" "1" (by decide)⟩

/-! ## The merge engine, second-run behaviour (towards C2) -/

theorem insertValues_id {hasP : AedElem → String → String → Bool}
    {addP : AedElem → String → String → Option AedElem}
    (hD : ∀ e t v e', addP e t v = some e' → e'.id = e.id) (id t : String) :
    ∀ (vals : List String) (e : AedElem) (n : Nat) (s : List String) r,
      insertValues hasP addP id t vals e n s = some r → r.1.id = e.id := by
  intro vals
  induction vals with
  | nil =>
      intro e n s r h
      rw [show insertValues hasP addP id t [] e n s = some (e, n, s)
        from rfl] at h
      injection h with h
      rw [← h]
  | cons v vs ih =>
      intro e n s r h
      simp only [insertValues] at h
      by_cases hh : hasP e t v = true
      · rw [if_pos hh] at h
        exact ih e n s r h
      · rw [if_neg hh] at h
        cases ha : addP e t v with
        | none => rw [ha] at h; exact Option.noConfusion h
        | some e' =>
            rw [ha] at h
            rw [ih e' _ _ r h, hD e t v e' ha]

theorem insertBag_id {hasP : AedElem → String → String → Bool}
    {addP : AedElem → String → String → Option AedElem}
    (hD : ∀ e t v e', addP e t v = some e' → e'.id = e.id) (id : String) :
    ∀ (bag : Props) (e : AedElem) (n : Nat) (s : List String) r,
      insertBag hasP addP id bag e n s = some r → r.1.id = e.id := by
  intro bag
  induction bag with
  | nil =>
      intro e n s r h
      rw [show insertBag hasP addP id [] e n s = some (e, n, s) from rfl] at h
      injection h with h
      rw [← h]
  | cons tv rest ih =>
      intro e n s r h
      obtain ⟨t, vals⟩ := tv
      simp only [insertBag] at h
      cases hiv : insertValues hasP addP id t vals e n s with
      | none => rw [hiv] at h; exact Option.noConfusion h
      | some r₁ =>
          rw [hiv] at h
          obtain ⟨e₁, n₁, s₁⟩ := r₁
          rw [ih e₁ n₁ s₁ r h]
          exact insertValues_id hD id t vals e n s (e₁, n₁, s₁) hiv

theorem insertValues_mono {hasP : AedElem → String → String → Bool}
    {addP : AedElem → String → String → Option AedElem}
    (hC : ∀ e t v t' v' e', hasP e t v = true → addP e t' v' = some e' →
      hasP e' t v = true) (id t t0 v0 : String) :
    ∀ (vals : List String) (e : AedElem) (n : Nat) (s : List String) r,
      insertValues hasP addP id t vals e n s = some r →
      hasP e t0 v0 = true → hasP r.1 t0 v0 = true := by
  intro vals
  induction vals with
  | nil =>
      intro e n s r h h0
      rw [show insertValues hasP addP id t [] e n s = some (e, n, s)
        from rfl] at h
      injection h with h
      rw [← h]
      exact h0
  | cons v vs ih =>
      intro e n s r h h0
      simp only [insertValues] at h
      by_cases hh : hasP e t v = true
      · rw [if_pos hh] at h
        exact ih e n s r h h0
      · rw [if_neg hh] at h
        cases ha : addP e t v with
        | none => rw [ha] at h; exact Option.noConfusion h
        | some e' =>
            rw [ha] at h
            exact ih e' _ _ r h (hC e t0 v0 t v e' h0 ha)

theorem insertBag_mono {hasP : AedElem → String → String → Bool}
    {addP : AedElem → String → String → Option AedElem}
    (hC : ∀ e t v t' v' e', hasP e t v = true → addP e t' v' = some e' →
      hasP e' t v = true) (id t0 v0 : String) :
    ∀ (bag : Props) (e : AedElem) (n : Nat) (s : List String) r,
      insertBag hasP addP id bag e n s = some r →
      hasP e t0 v0 = true → hasP r.1 t0 v0 = true := by
  intro bag
  induction bag with
  | nil =>
      intro e n s r h h0
      rw [show insertBag hasP addP id [] e n s = some (e, n, s) from rfl] at h
      injection h with h
      rw [← h]
      exact h0
  | cons tv rest ih =>
      intro e n s r h h0
      obtain ⟨t, vals⟩ := tv
      simp only [insertBag] at h
      cases hiv : insertValues hasP addP id t vals e n s with
      | none => rw [hiv] at h; exact Option.noConfusion h
      | some r₁ =>
          rw [hiv] at h
          obtain ⟨e₁, n₁, s₁⟩ := r₁
          exact ih e₁ n₁ s₁ r h
            (insertValues_mono hC id t t0 v0 vals e n s (e₁, n₁, s₁) hiv h0)

theorem insertValues_establishes {hasP : AedElem → String → String → Bool}
    {addP : AedElem → String → String → Option AedElem}
    (hB : ∀ e t v e', addP e t v = some e' → hasP e' t v = true)
    (hC : ∀ e t v t' v' e', hasP e t v = true → addP e t' v' = some e' →
      hasP e' t v = true) (id t : String) :
    ∀ (vals : List String) (e : AedElem) (n : Nat) (s : List String) r,
      insertValues hasP addP id t vals e n s = some r →
      ∀ v, v ∈ vals → hasP r.1 t v = true := by
  intro vals
  induction vals with
  | nil =>
      intro e n s r h v hv
      exact absurd hv (List.not_mem_nil v)
  | cons v₀ vs ih =>
      intro e n s r h v hv
      simp only [insertValues] at h
      by_cases hh : hasP e t v₀ = true
      · rw [if_pos hh] at h
        rcases List.mem_cons.mp hv with hveq | hvmem
        · rw [hveq]
          exact insertValues_mono hC id t t v₀ vs e n s r h hh
        · exact ih e n s r h v hvmem
      · rw [if_neg hh] at h
        cases ha : addP e t v₀ with
        | none => rw [ha] at h; exact Option.noConfusion h
        | some e' =>
            rw [ha] at h
            rcases List.mem_cons.mp hv with hveq | hvmem
            · rw [hveq]
              exact insertValues_mono hC id t t v₀ vs e' _ _ r h
                (hB e t v₀ e' ha)
            · exact ih e' _ _ r h v hvmem

theorem insertBag_establishes {hasP : AedElem → String → String → Bool}
    {addP : AedElem → String → String → Option AedElem}
    (hB : ∀ e t v e', addP e t v = some e' → hasP e' t v = true)
    (hC : ∀ e t v t' v' e', hasP e t v = true → addP e t' v' = some e' →
      hasP e' t v = true) (id : String) :
    ∀ (bag : Props) (e : AedElem) (n : Nat) (s : List String) r,
      insertBag hasP addP id bag e n s = some r →
      ∀ tv, tv ∈ bag → ∀ v, v ∈ tv.2 → hasP r.1 tv.1 v = true := by
  intro bag
  induction bag with
  | nil =>
      intro e n s r h tv htv
      exact absurd htv (List.not_mem_nil tv)
  | cons tv₀ rest ih =>
      intro e n s r h tv htv v hv
      obtain ⟨t, vals⟩ := tv₀
      simp only [insertBag] at h
      cases hiv : insertValues hasP addP id t vals e n s with
      | none => rw [hiv] at h; exact Option.noConfusion h
      | some r₁ =>
          rw [hiv] at h
          obtain ⟨e₁, n₁, s₁⟩ := r₁
          rcases List.mem_cons.mp htv with htveq | htvmem
          · rw [htveq]
            refine insertBag_mono hC id t v rest e₁ n₁ s₁ r h ?_
            rw [htveq] at hv
            exact insertValues_establishes hB hC id t vals e n s (e₁, n₁, s₁)
              hiv v hv
          · exact ih e₁ n₁ s₁ r h tv htvmem v hv

theorem insertValues_noop {hasP : AedElem → String → String → Bool}
    {addP : AedElem → String → String → Option AedElem} (id t : String) :
    ∀ (vals : List String) (e : AedElem) (n : Nat) (s : List String),
      (∀ v, v ∈ vals → hasP e t v = true) →
      insertValues hasP addP id t vals e n s = some (e, n, s) := by
  intro vals
  induction vals with
  | nil => intro e n s _; rfl
  | cons v vs ih =>
      intro e n s hall
      simp only [insertValues]
      rw [if_pos (hall v (List.mem_cons_self _ _))]
      exact ih e n s (fun v' hv' => hall v' (List.mem_cons_of_mem _ hv'))

theorem insertBag_noop {hasP : AedElem → String → String → Bool}
    {addP : AedElem → String → String → Option AedElem} (id : String) :
    ∀ (bag : Props) (e : AedElem) (n : Nat) (s : List String),
      (∀ tv, tv ∈ bag → ∀ v, v ∈ tv.2 → hasP e tv.1 v = true) →
      insertBag hasP addP id bag e n s = some (e, n, s) := by
  intro bag
  induction bag with
  | nil => intro e n s _; rfl
  | cons tv rest ih =>
      intro e n s hall
      obtain ⟨t, vals⟩ := tv
      simp only [insertBag]
      rw [insertValues_noop id t vals e n s
        (fun v hv => hall (t, vals) (List.mem_cons_self _ _) v hv)]
      exact ih e n s (fun tv' htv' => hall tv' (List.mem_cons_of_mem _ htv'))

/-- For an insertion whose add always establishes its has-check, whose
has-checks are stable under further adds, and whose adds keep the
element's id, a second engine run over the result of a first run changes
nothing and inserts nothing. -/
theorem updateElems_idem_generic (reg : List (String × Props))
    (hasP : AedElem → String → String → Bool)
    (addP : AedElem → String → String → Option AedElem)
    (hB : ∀ e t v e', addP e t v = some e' → hasP e' t v = true)
    (hC : ∀ e t v t' v' e', hasP e t v = true → addP e t' v' = some e' →
      hasP e' t v = true)
    (hD : ∀ e t v e', addP e t v = some e' → e'.id = e.id) :
    ∀ (doc : List AedElem) (n : Nat) (s : List String) d1 n1 s1,
      updateElems reg hasP addP doc n s = some (d1, n1, s1) →
      ∀ (n0 : Nat) (s0 : List String),
        updateElems reg hasP addP d1 n0 s0 = some (d1, n0, s0) := by
  intro doc
  induction doc with
  | nil =>
      intro n s d1 n1 s1 h n0 s0
      rw [show updateElems reg hasP addP [] n s = some ([], n, s)
        from rfl] at h
      injection h with h
      injection h with h1 h2
      rw [← h1]
      rfl
  | cons e doc' ih =>
      intro n s d1 n1 s1 h n0 s0
      simp only [updateElems] at h
      split at h
      · exact Option.noConfusion h
      · rename_i e₁ n₁ s₁ hib
        split at h
        · exact Option.noConfusion h
        · rename_i doc₁ n₂ s₂ hup
          injection h with h
          injection h with h1 h2
          rw [← h1]
          have hid : e₁.id = e.id :=
            insertBag_id hD e.id ((getKey? reg e.id).getD []) e n s
              (e₁, n₁, s₁) hib
          have hsat : ∀ tv, tv ∈ (getKey? reg e₁.id).getD [] →
              ∀ v, v ∈ tv.2 → hasP e₁ tv.1 v = true := by
            rw [hid]
            intro tv htv v hv
            exact insertBag_establishes hB hC e.id _ e n s (e₁, n₁, s₁)
              hib tv htv v hv
          have hnoop : insertBag hasP addP e₁.id
              ((getKey? reg e₁.id).getD []) e₁ n0 s0 = some (e₁, n0, s0) :=
            insertBag_noop e₁.id _ e₁ n0 s0 hsat
          have hrec := ih n₁ s₁ doc₁ n₂ s₂ hup n0 s0
          simp only [updateElems, hnoop, hrec]

/-! ### The relation and translation insertion pairs satisfy the
generic second-run assumptions -/

theorem rel_hB : ∀ (e : AedElem) (t v : String) (e' : AedElem),
    _add_relation e t v = some e' → _has_relation e' t v = true := by
  intro e t v e' h
  injection h with h
  rw [← h]
  unfold _has_relation
  by_cases hb : isBlank v = true
  · rw [if_pos hb]
  · rw [if_neg hb]
    simp [List.contains, List.elem_eq_mem]

theorem rel_hC : ∀ (e : AedElem) (t v t' v' : String) (e' : AedElem),
    _has_relation e t v = true → _add_relation e t' v' = some e' →
    _has_relation e' t v = true := by
  intro e t v t' v' e' h0 h
  injection h with h
  rw [← h]
  unfold _has_relation at h0 ⊢
  by_cases hb : isBlank v = true
  · rw [if_pos hb]
  · rw [if_neg hb] at h0 ⊢
    simp only [List.contains, List.elem_eq_mem, decide_eq_true_eq] at h0 ⊢
    exact List.mem_append_left _ h0

theorem rel_hD : ∀ (e : AedElem) (t v : String) (e' : AedElem),
    _add_relation e t v = some e' → e'.id = e.id := by
  intro e t v e' h
  injection h with h
  rw [← h]

theorem trans_hB : ∀ (e : AedElem) (t v : String) (e' : AedElem),
    _add_translation e t v = some e' → _has_translation e' t v = true := by
  intro e t v e' h
  injection h with h
  rw [← h]
  unfold _has_translation
  by_cases hb : isBlank v = true
  · rw [if_pos hb]
  · rw [if_neg hb]
    simp [List.contains, List.elem_eq_mem]

theorem trans_hC : ∀ (e : AedElem) (t v t' v' : String) (e' : AedElem),
    _has_translation e t v = true → _add_translation e t' v' = some e' →
    _has_translation e' t v = true := by
  intro e t v t' v' e' h0 h
  injection h with h
  rw [← h]
  unfold _has_translation at h0 ⊢
  by_cases hb : isBlank v = true
  · rw [if_pos hb]
  · rw [if_neg hb] at h0 ⊢
    simp only [List.contains, List.elem_eq_mem, decide_eq_true_eq] at h0 ⊢
    exact List.mem_append_left _ h0

theorem trans_hD : ∀ (e : AedElem) (t v : String) (e' : AedElem),
    _add_translation e t v = some e' → e'.id = e.id := by
  intro e t v e' h
  injection h with h
  rw [← h]

/-! ### The date-range kind: state normal form of the conditional fold -/

/-- One conditional insertion step of the date-range kind
(`if not has: add`). -/
def dstep (e : AedElem) (t v : String) : Option AedElem :=
  if _has_daterange e t v then some e else _add_daterange e t v

/-- The conditional insertion steps of the date-range kind, flattened
over a list of `(bound, value)` pairs. -/
def dfold : AedElem → List (String × String) → Option AedElem
  | e, [] => some e
  | e, (t, v) :: L =>
      match dstep e t v with
      | none => none
      | some e' => dfold e' L

/-- The last value a pair list writes for a bound. -/
def dlast (t : String) (L : List (String × String)) : Option String :=
  L.foldl (fun acc p => if p.1 = t then some p.2 else acc) none

/-- Normal form of the optional date element after the fold. -/
def dres (d : Option (Option String × Option String))
    (L : List (String × String)) : Option (Option String × Option String) :=
  match L with
  | [] => d
  | _ :: _ =>
      some ((dlast "beginning" L).orElse (fun _ => d.bind Prod.fst),
        (dlast "end" L).orElse (fun _ => d.bind Prod.snd))

theorem oe_none {α : Type} (f : Unit → Option α) :
    Option.orElse none f = f () := rfl

theorem oe_some {α : Type} (x : α) (f : Unit → Option α) :
    Option.orElse (some x) f = some x := rfl

theorem dlast_foldl (t : String) :
    ∀ (L : List (String × String)) (a : Option String),
      L.foldl (fun acc p => if p.1 = t then some p.2 else acc) a =
        (dlast t L).orElse (fun _ => a) := by
  intro L
  induction L with
  | nil => intro a; rfl
  | cons p L ih =>
      intro a
      rw [show (p :: L).foldl (fun acc q => if q.1 = t then some q.2 else acc)
          a = L.foldl (fun acc q => if q.1 = t then some q.2 else acc)
          (if p.1 = t then some p.2 else a) from rfl]
      rw [ih]
      rw [show dlast t (p :: L) = L.foldl
          (fun acc q => if q.1 = t then some q.2 else acc)
          (if p.1 = t then some p.2 else none) from rfl]
      rw [ih]
      cases hdl : dlast t L with
      | none =>
          rw [oe_none, oe_none]
          by_cases hp : p.1 = t
          · rw [if_pos hp, if_pos hp, oe_some]
          · rw [if_neg hp, if_neg hp, oe_none]
      | some x => rw [oe_some, oe_some, oe_some]

theorem dlast_cons (t : String) (p : String × String)
    (L : List (String × String)) :
    dlast t (p :: L) =
      (dlast t L).orElse (fun _ => if p.1 = t then some p.2 else none) := by
  rw [show dlast t (p :: L) = L.foldl
      (fun acc q => if q.1 = t then some q.2 else acc)
      (if p.1 = t then some p.2 else none) from rfl]
  exact dlast_foldl t L _

theorem dres_some (f s : Option String) (L : List (String × String)) :
    dres (some (f, s)) L =
      some ((dlast "beginning" L).orElse (fun _ => f),
        (dlast "end" L).orElse (fun _ => s)) := by
  cases L with
  | nil => rfl
  | cons p L => rfl

theorem dres_idem (d : Option (Option String × Option String))
    (L : List (String × String)) : dres (dres d L) L = dres d L := by
  cases L with
  | nil => rfl
  | cons p L =>
      rw [show dres d (p :: L) =
          some ((dlast "beginning" (p :: L)).orElse (fun _ => d.bind Prod.fst),
            (dlast "end" (p :: L)).orElse (fun _ => d.bind Prod.snd))
          from rfl]
      rw [dres_some]
      cases hb : dlast "beginning" (p :: L) with
      | none =>
          cases he : dlast "end" (p :: L) with
          | none => rw [oe_none, oe_none, oe_none, oe_none]
          | some y => rw [oe_none, oe_some, oe_none, oe_some]
      | some x =>
          cases he : dlast "end" (p :: L) with
          | none => rw [oe_some, oe_none, oe_some, oe_none]
          | some y => rw [oe_some, oe_some, oe_some, oe_some]

theorem dstep_beginning (e : AedElem) (v : String) :
    dstep e "beginning" v =
      some { e with date := some (some v, e.date.bind Prod.snd) } := by
  obtain ⟨i, r, c, d⟩ := e
  cases d with
  | none => rfl
  | some fs =>
      obtain ⟨f, s⟩ := fs
      unfold dstep
      rw [show _has_daterange ⟨i, r, c, some (f, s)⟩ "beginning" v =
        (f == some v) from rfl]
      by_cases hf : (f == some v) = true
      · rw [if_pos hf]
        have hfe : f = some v := eq_of_beq hf
        rw [hfe]
        rfl
      · rw [if_neg hf]
        rfl

theorem dstep_end (e : AedElem) (v : String) :
    dstep e "end" v =
      some { e with date := some (e.date.bind Prod.fst, some v) } := by
  obtain ⟨i, r, c, d⟩ := e
  cases d with
  | none => rfl
  | some fs =>
      obtain ⟨f, s⟩ := fs
      unfold dstep
      rw [show _has_daterange ⟨i, r, c, some (f, s)⟩ "end" v =
        (s == some v) from rfl]
      by_cases hs : (s == some v) = true
      · rw [if_pos hs]
        have hse : s = some v := eq_of_beq hs
        rw [hse]
        rfl
      · rw [if_neg hs]
        rfl

theorem has_daterange_unbound (e : AedElem) (t v : String)
    (h : getKey? DATERANGE_BOUNDS t = none) :
    _has_daterange e t v = false := by
  obtain ⟨i, r, c, d⟩ := e
  cases d with
  | none => rfl
  | some fs =>
      obtain ⟨f, s⟩ := fs
      unfold _has_daterange
      rw [h]

theorem add_daterange_unbound (e : AedElem) (t v : String)
    (h : getKey? DATERANGE_BOUNDS t = none) :
    _add_daterange e t v = none := by
  unfold _add_daterange
  rw [h]

theorem dstep_unbound (e : AedElem) (t v : String)
    (h : getKey? DATERANGE_BOUNDS t = none) : dstep e t v = none := by
  unfold dstep
  rw [has_daterange_unbound e t v h, if_neg Bool.false_ne_true,
    add_daterange_unbound e t v h]

theorem bounds_good {t a : String}
    (h : getKey? DATERANGE_BOUNDS t = some a) :
    t = "beginning" ∨ t = "end" := by
  have hm := getKey?_mem h
  rw [show DATERANGE_BOUNDS = [("beginning", "from"), ("end", "to")]
    from rfl] at hm
  rcases List.mem_cons.mp hm with h1 | h1
  · injection h1 with ht _
    exact Or.inl ht
  · injection List.mem_singleton.mp h1 with ht _
    exact Or.inr ht

theorem dres_step_beginning (d : Option (Option String × Option String))
    (v : String) (L : List (String × String)) :
    dres d (("beginning", v) :: L) =
      dres (some (some v, d.bind Prod.snd)) L := by
  rw [dres_some]
  rw [show dres d (("beginning", v) :: L) = some
      ((dlast "beginning" (("beginning", v) :: L)).orElse
        (fun _ => d.bind Prod.fst),
       (dlast "end" (("beginning", v) :: L)).orElse
        (fun _ => d.bind Prod.snd)) from rfl]
  rw [dlast_cons "beginning" ("beginning", v) L,
    dlast_cons "end" ("beginning", v) L]
  rw [show (if (("beginning", v) : String × String).1 = "beginning"
      then some v else none) = some v from rfl]
  rw [show (if (("beginning", v) : String × String).1 = "end"
      then some v else none) = none from rfl]
  cases hb : dlast "beginning" L with
  | none =>
      cases he : dlast "end" L with
      | none => simp only [oe_none, oe_some]
      | some y => simp only [oe_none, oe_some]
  | some x =>
      cases he : dlast "end" L with
      | none => simp only [oe_none, oe_some]
      | some y => simp only [oe_none, oe_some]

theorem dres_step_end (d : Option (Option String × Option String))
    (v : String) (L : List (String × String)) :
    dres d (("end", v) :: L) =
      dres (some (d.bind Prod.fst, some v)) L := by
  rw [dres_some]
  rw [show dres d (("end", v) :: L) = some
      ((dlast "beginning" (("end", v) :: L)).orElse
        (fun _ => d.bind Prod.fst),
       (dlast "end" (("end", v) :: L)).orElse
        (fun _ => d.bind Prod.snd)) from rfl]
  rw [dlast_cons "beginning" ("end", v) L, dlast_cons "end" ("end", v) L]
  rw [show (if (("end", v) : String × String).1 = "end"
      then some v else none) = some v from rfl]
  rw [show (if (("end", v) : String × String).1 = "beginning"
      then some v else none) = none from rfl]
  cases hb : dlast "beginning" L with
  | none =>
      cases he : dlast "end" L with
      | none => simp only [oe_none, oe_some]
      | some y => simp only [oe_none, oe_some]
  | some x =>
      cases he : dlast "end" L with
      | none => simp only [oe_none, oe_some]
      | some y => simp only [oe_none, oe_some]

theorem dfold_char : ∀ (L : List (String × String)) (e : AedElem),
    (∀ p, p ∈ L → p.1 = "beginning" ∨ p.1 = "end") →
    dfold e L = some { e with date := dres e.date L } := by
  intro L
  induction L with
  | nil =>
      intro e _
      rfl
  | cons p L ih =>
      intro e hgood
      obtain ⟨t, v⟩ := p
      rcases hgood (t, v) (List.mem_cons_self _ _) with ht | ht
      · rw [show ((t, v) : String × String).1 = t from rfl] at ht
        subst ht
        rw [show dfold e (("beginning", v) :: L) =
            (match dstep e "beginning" v with
             | none => none
             | some e' => dfold e' L) from rfl]
        rw [dstep_beginning]
        rw [show (match some { e with
              date := some (some v, e.date.bind Prod.snd) } with
            | none => (none : Option AedElem)
            | some e' => dfold e' L) =
            dfold { e with date := some (some v, e.date.bind Prod.snd) } L
          from rfl]
        rw [ih _ (fun q hq => hgood q (List.mem_cons_of_mem _ hq))]
        rw [dres_step_beginning]
      · rw [show ((t, v) : String × String).1 = t from rfl] at ht
        subst ht
        rw [show dfold e (("end", v) :: L) =
            (match dstep e "end" v with
             | none => none
             | some e' => dfold e' L) from rfl]
        rw [dstep_end]
        rw [show (match some { e with
              date := some (e.date.bind Prod.fst, some v) } with
            | none => (none : Option AedElem)
            | some e' => dfold e' L) =
            dfold { e with date := some (e.date.bind Prod.fst, some v) } L
          from rfl]
        rw [ih _ (fun q hq => hgood q (List.mem_cons_of_mem _ hq))]
        rw [dres_step_end]

theorem dfold_good : ∀ (L : List (String × String)) (e e' : AedElem),
    dfold e L = some e' →
    ∀ p, p ∈ L → p.1 = "beginning" ∨ p.1 = "end" := by
  intro L
  induction L with
  | nil =>
      intro e e' _ p hp
      exact absurd hp (List.not_mem_nil p)
  | cons q L ih =>
      intro e e' h p hp
      obtain ⟨t, v⟩ := q
      rw [show dfold e ((t, v) :: L) =
          (match dstep e t v with
           | none => none
           | some e₁ => dfold e₁ L) from rfl] at h
      cases hds : dstep e t v with
      | none =>
          rw [hds] at h
          exact Option.noConfusion h
      | some e₁ =>
          rw [hds] at h
          rcases List.mem_cons.mp hp with hpq | hpL
          · cases hlk : getKey? DATERANGE_BOUNDS t with
            | none =>
                rw [dstep_unbound e t v hlk] at hds
                exact Option.noConfusion hds
            | some a =>
                rw [hpq]
                exact bounds_good hlk
          · exact ih e₁ e' h p hpL

theorem dfold_idem (L : List (String × String)) (e e₁ : AedElem)
    (h : dfold e L = some e₁) : dfold e₁ L = some e₁ := by
  have hgood := dfold_good L e e₁ h
  have h1 := dfold_char L e hgood
  rw [h1] at h
  injection h with h
  rw [dfold_char L e₁ hgood]
  have hd : dres e₁.date L = e₁.date := by
    rw [← h]
    show dres (dres e.date L) L = dres e.date L
    exact dres_idem e.date L
  rw [hd]

theorem dfold_append : ∀ (L1 L2 : List (String × String)) (e : AedElem),
    dfold e (L1 ++ L2) =
      (match dfold e L1 with
       | none => none
       | some e' => dfold e' L2) := by
  intro L1
  induction L1 with
  | nil => intro L2 e; rfl
  | cons q L1 ih =>
      intro L2 e
      obtain ⟨t, v⟩ := q
      simp only [List.cons_append, dfold]
      cases hds : dstep e t v with
      | none => rfl
      | some e' => exact ih L2 e'

theorem dr_hD : ∀ (e : AedElem) (t v : String) (e' : AedElem),
    _add_daterange e t v = some e' → e'.id = e.id := by
  intro e t v e' h
  unfold _add_daterange at h
  cases hlk : getKey? DATERANGE_BOUNDS t with
  | none =>
      rw [hlk] at h
      exact Option.noConfusion h
  | some a =>
      have hm := getKey?_mem hlk
      rw [show DATERANGE_BOUNDS = [("beginning", "from"), ("end", "to")]
        from rfl] at hm
      rcases List.mem_cons.mp hm with h1 | h1
      · injection h1 with _ ha
        subst ha
        rw [hlk] at h
        injection h with h
        rw [← h]
      · injection List.mem_singleton.mp h1 with _ ha
        subst ha
        rw [hlk] at h
        injection h with h
        rw [← h]

theorem insertValues_dfold (id t : String) :
    ∀ (vals : List String) (e : AedElem) (n : Nat) (s : List String),
      (insertValues _has_daterange _add_daterange id t vals e n s).map
          (fun r => r.1) =
        dfold e (vals.map (fun v => (t, v))) := by
  intro vals
  induction vals with
  | nil => intro e n s; rfl
  | cons v vs ih =>
      intro e n s
      simp only [insertValues, List.map_cons, dfold, dstep]
      by_cases hh : _has_daterange e t v = true
      · rw [if_pos hh, if_pos hh]
        exact ih e n s
      · rw [if_neg hh, if_neg hh]
        cases ha : _add_daterange e t v with
        | none => rfl
        | some e' => exact ih e' (n + 1) (insertId s id)

theorem insertBag_dfold (id : String) :
    ∀ (bag : Props) (e : AedElem) (n : Nat) (s : List String),
      (insertBag _has_daterange _add_daterange id bag e n s).map
          (fun r => r.1) =
        dfold e (edgesOf bag) := by
  intro bag
  induction bag with
  | nil => intro e n s; rfl
  | cons tv rest ih =>
      intro e n s
      obtain ⟨t, vals⟩ := tv
      rw [show edgesOf ((t, vals) :: rest) =
        vals.map (fun v => (t, v)) ++ edgesOf rest from rfl]
      rw [dfold_append]
      simp only [insertBag]
      cases hiv : insertValues _has_daterange _add_daterange id t vals e n s
        with
      | none =>
          have hv := insertValues_dfold id t vals e n s
          rw [hiv] at hv
          rw [← hv]
          rfl
      | some r₁ =>
          obtain ⟨e₁, n₁, s₁⟩ := r₁
          have hdf : dfold e (vals.map (fun v => (t, v))) = some e₁ := by
            have hv := insertValues_dfold id t vals e n s
            rw [hiv] at hv
            simp only [Option.map_some'] at hv
            exact hv.symm
          rw [hdf]
          exact ih e₁ n₁ s₁

theorem map_fst_inv {o : Option (AedElem × Nat × List String)} {x : AedElem}
    (h : o.map (fun r => r.1) = some x) : ∃ n s, o = some (x, n, s) := by
  cases o with
  | none => exact Option.noConfusion h
  | some r =>
      obtain ⟨a, b, c⟩ := r
      simp only [Option.map_some'] at h
      injection h with h
      exact ⟨b, c, by rw [h]⟩

/-- A second date-range engine run over the result of a first run leaves
the document unchanged (though, unlike the other kinds, it may count
insertions again, as the overwriting add is not monotone). -/
theorem updateElems_daterange (reg : List (String × Props)) :
    ∀ (doc : List AedElem) (n : Nat) (s : List String) d1 n1 s1,
      updateElems reg _has_daterange _add_daterange doc n s =
        some (d1, n1, s1) →
      ∀ (n0 : Nat) (s0 : List String), ∃ n2 s2,
        updateElems reg _has_daterange _add_daterange d1 n0 s0 =
          some (d1, n2, s2) := by
  intro doc
  induction doc with
  | nil =>
      intro n s d1 n1 s1 h n0 s0
      rw [show updateElems reg _has_daterange _add_daterange [] n s =
        some ([], n, s) from rfl] at h
      injection h with h
      injection h with h1 _
      rw [← h1]
      exact ⟨n0, s0, rfl⟩
  | cons e doc' ih =>
      intro n s d1 n1 s1 h n0 s0
      simp only [updateElems] at h
      split at h
      · exact Option.noConfusion h
      · rename_i e₁ n₁ s₁ hib
        split at h
        · exact Option.noConfusion h
        · rename_i doc₁ n₂ s₂ hup
          injection h with h
          injection h with h1 _
          rw [← h1]
          have hid : e₁.id = e.id :=
            insertBag_id dr_hD e.id ((getKey? reg e.id).getD []) e n s
              (e₁, n₁, s₁) hib
          have hdf1 : dfold e (edgesOf ((getKey? reg e.id).getD [])) =
              some e₁ := by
            have hb := insertBag_dfold e.id ((getKey? reg e.id).getD [])
              e n s
            rw [hib] at hb
            simp only [Option.map_some'] at hb
            exact hb.symm
          have hdf2 := dfold_idem _ e e₁ hdf1
          have hb2 := insertBag_dfold e₁.id ((getKey? reg e₁.id).getD [])
            e₁ n0 s0
          rw [hid] at hb2
          rw [hdf2] at hb2
          rcases map_fst_inv hb2 with ⟨na, sa, hib2⟩
          rcases ih n₁ s₁ doc₁ n₂ s₂ hup na sa with ⟨nb, sb, hrec⟩
          refine ⟨nb, sb, ?_⟩
          simp only [updateElems]
          rw [hid]
          simp only [hib2, hrec]

/-! ## C2: idempotence of the merge engine -/

/-- C2 counterexample: for the date-range kind the claim fails.  With a
registry entry listing two distinct values for the `beginning` bound, the
second engine run re-inserts both again (the overwriting `_add_daterange`
is not monotone), so it inserts 2 elements and touches 1 entry instead of
zero — even though the final tree state is unchanged. -/
theorem update_daterange_second_run_counterexample :
    TargetDef_update [("e", [("beginning", ["-100", "-200"])])]
        _has_daterange _add_daterange [⟨"e", [], [], none⟩] =
      some ([⟨"e", [], [], some (some "-200", none)⟩], 2, ["e"]) ∧
    TargetDef_update [("e", [("beginning", ["-100", "-200"])])]
        _has_daterange _add_daterange
        [⟨"e", [], [], some (some "-200", none)⟩] =
      some ([⟨"e", [], [], some (some "-200", none)⟩], 2, ["e"]) ∧
    TargetDef_update [("e", [("beginning", ["-100", "-200"])])]
        _has_daterange _add_daterange
        [⟨"e", [], [], some (some "-200", none)⟩] ≠
      some ([⟨"e", [], [], some (some "-200", none)⟩], 0, []) := by
  exact ⟨by decide, by decide, by decide⟩

/-- C2 (amended): a second run of the merge engine over the result of a
first run with the same registry always reproduces the identical final
tree state, for all three property kinds; it inserts zero elements and
touches zero entries for the translation and relation kinds, while for
the date-range kind the insertion count of the second run can be nonzero
(a bound listing several distinct values is re-inserted on every run). -/
theorem update_second_run_amended :
    (∀ (reg : List (String × Props)) (doc d1 : List AedElem) (n1 : Nat)
        (s1 : List String),
        TargetDef_update reg _has_relation _add_relation doc =
          some (d1, n1, s1) →
        TargetDef_update reg _has_relation _add_relation d1 =
          some (d1, 0, [])) ∧
    (∀ (reg : List (String × Props)) (doc d1 : List AedElem) (n1 : Nat)
        (s1 : List String),
        TargetDef_update reg _has_translation _add_translation doc =
          some (d1, n1, s1) →
        TargetDef_update reg _has_translation _add_translation d1 =
          some (d1, 0, [])) ∧
    (∀ (reg : List (String × Props)) (doc d1 : List AedElem) (n1 : Nat)
        (s1 : List String),
        TargetDef_update reg _has_daterange _add_daterange doc =
          some (d1, n1, s1) →
        ∃ n2 s2,
          TargetDef_update reg _has_daterange _add_daterange d1 =
            some (d1, n2, s2)) := by
  refine ⟨?_, ?_, ?_⟩
  · intro reg doc d1 n1 s1 h
    exact updateElems_idem_generic reg _has_relation _add_relation
      rel_hB rel_hC rel_hD doc 0 [] d1 n1 s1 h 0 []
  · intro reg doc d1 n1 s1 h
    exact updateElems_idem_generic reg _has_translation _add_translation
      trans_hB trans_hC trans_hD doc 0 [] d1 n1 s1 h 0 []
  · intro reg doc d1 n1 s1 h
    exact updateElems_daterange reg doc 0 [] d1 n1 s1 h 0 []

/-- Witness for C2's amended theorem: a concrete relation insertion run,
rerun on its own output, changes nothing and counts nothing. -/
theorem update_second_run_amended_witness :
    TargetDef_update [("e", [("root", ["2"])])] _has_relation _add_relation
        [⟨"e", [("root", "tla2")], [], none⟩] =
      some ([⟨"e", [("root", "tla2")], [], none⟩], 0, []) :=
  update_second_run_amended.1 [("e", [("root", ["2"])])]
    [⟨"e", [], [], none⟩] [⟨"e", [("root", "tla2")], [], none⟩] 1 ["e"]
    (by decide)

end Peret
